import Mathlib

/-!
Shallow embedding of the opencoin node core (Go sources under pkg/) used to
check the natural-language specification against the code.

Conventions of the embedding:
* Go `uint64` values are `Nat` together with the explicit saturation /
  wrap-around checks that the Go source itself performs against
  `^uint64(0)`; where Go arithmetic can silently wrap (`+=` on uint64) we
  take the result `% 2^64`.
* Go `string`/`[]byte` values (addresses, hashes, keys, encodings) are
  `List Nat` of byte values; Go string comparison is bytewise
  lexicographic, which `bytesLt` mirrors.
* External collaborators (Ed25519 signature verification, SHA-256,
  bech32 address derivation, the pebble KV store) are passed in as
  function parameters / modelled as association lists, exactly at the
  interface boundary the Go code uses them.
-/

namespace OpenCoin

/-- `^uint64(0)` in the Go sources. -/
def U64MAX : Nat := 2 ^ 64 - 1

/-- One step past the largest uint64, for wrap-around arithmetic. -/
def U64MOD : Nat := 2 ^ 64

/-- Byte strings (`[]byte` / `string` in Go). -/
abbrev Bytes := List Nat

/-- Addresses are Go strings (bech32 text), compared bytewise. -/
abbrev Addr := Bytes

/-- Bytewise lexicographic strict order, i.e. Go `string <`.
`Hash.String()` hex-encodes a 32-byte hash; comparing the hex strings of two
32-byte hashes orders them exactly as comparing the raw bytes, so this order
also models the mempool's `h[i].hash.String() < h[j].hash.String()`. -/
def bytesLt : Bytes → Bytes → Bool
  | [], [] => false
  | [], _ :: _ => true
  | _ :: _, [] => false
  | a :: as, b :: bs => if a < b then true else if b < a then false else bytesLt as bs

/-! ## protobuf wire helpers (`google.golang.org/protobuf/encoding/protowire`)

The Go package is the codec the repository builds every canonical encoding
from; we embed the handful of operations the sources call. -/

/-- `protowire.AppendVarint`: little-endian base-128 varint.  The fuel
argument only bounds the recursion depth; `fuel = v` always suffices
(each emitted byte divides the value by 128), so `appendVarint` agrees
with the Go function on every input. -/
def appendVarintAux : Nat → Nat → Bytes
  | 0, v => [v]
  | fuel + 1, v =>
    if v < 0x80 then [v]
    else (v % 0x80 + 0x80) :: appendVarintAux fuel (v / 0x80)

def appendVarint (v : Nat) : Bytes := appendVarintAux v v

/-- `protowire.AppendTag`: tag = field number shifted left 3, or-ed with wire type. -/
def appendTag (num typ : Nat) : Bytes := appendVarint (num * 8 + typ)

/-- `protowire.AppendBytes`: length-prefixed bytes. -/
def appendBytes (b : Bytes) : Bytes := appendVarint b.length ++ b

/-- `protowire.ConsumeVarint` (value, bytes consumed); at most ten bytes,
the tenth at most 1.  Returns `none` where Go reports a negative length. -/
def consumeVarintAux : Nat → Nat → Nat → Bytes → Option (Nat × Nat)
  | _, _, _, [] => none
  | i, shift, acc, b :: rest =>
    if i = 9 then
      if b ≤ 1 then some ((acc + b * 2 ^ shift) % U64MOD, i + 1) else none
    else if b < 0x80 then some ((acc + b * 2 ^ shift) % U64MOD, i + 1)
    else consumeVarintAux (i + 1) (shift + 7) (acc + (b - 0x80) * 2 ^ shift) rest

def consumeVarint (b : Bytes) : Option (Nat × Nat) :=
  consumeVarintAux 0 0 0 b

/-- `protowire.ConsumeTag`: (field number, wire type, bytes consumed). -/
def consumeTag (b : Bytes) : Option (Nat × Nat × Nat) := do
  let (v, n) ← consumeVarint b
  if v / 8 = 0 then none else some (v / 8, v % 8, n)

/-- `protowire.ConsumeBytes`: (payload, total bytes consumed). -/
def consumeBytes (b : Bytes) : Option (Bytes × Nat) := do
  let (len, n) ← consumeVarint b
  if b.length - n < len then none
  else some ((b.drop n).take len, n + len)

/-- `protowire.ConsumeFieldValue` for the wire types the node can meet
(varint, fixed64, bytes, fixed32); returns bytes consumed.  Go would also
walk well-formed start/end-group pairs, which no opencoin encoding emits;
we reject them like every other malformed tag. -/
def consumeFieldValue (typ : Nat) (b : Bytes) : Option Nat :=
  match typ with
  | 0 => do let (_, n) ← consumeVarint b; some n
  | 1 => if 8 ≤ b.length then some 8 else none
  | 2 => do let (_, n) ← consumeBytes b; some n
  | 5 => if 4 ≤ b.length then some 4 else none
  | _ => none

/-! ## Core data model (`pkg/types`, reconstructed from every use site in
`pkg/state`, `pkg/consensus`, `pkg/mempool`, `pkg/encoding` and §3 of the
spec; the `types` package itself ships with the repository). -/

/-- `types.Transaction`. -/
structure Transaction where
  fromAddr : Addr
  toAddr : Addr
  nonce : Nat
  payload : Bytes
  signature : Bytes
deriving DecidableEq, Repr

/-- `types.Account` (`LastRCEffectiveTime` is the Go field name for the
spec's `last_rc_time`). -/
structure Account where
  address : Addr
  balance : Nat := 0
  nonce : Nat := 0
  stake : Nat := 0
  rc : Nat := 0
  rcMax : Nat := 0
  lastRCEffectiveTime : Int := 0
  code : Bytes := []
  pubkey : Bytes := []
deriving DecidableEq, Repr

/-- `types.Block`. -/
structure Block where
  height : Nat
  prevHash : Bytes
  stateRoot : Bytes
  timestamp : Int
  proposer : Addr
  transactions : List Transaction
  validatorSigs : List Bytes
deriving DecidableEq, Repr

/-- `types.PrecommitVote`. -/
structure PrecommitVote where
  blockHash : Bytes
  height : Nat
  round : Nat
  validator : Addr
  signature : Bytes
deriving DecidableEq, Repr

/-- `types.QuorumCertificate` (aggregated-sig field unused by the sources we model). -/
structure QuorumCertificate where
  blockHash : Bytes
  height : Nat
  round : Nat
  sigBitmap : Bytes
  signatures : List Bytes
deriving DecidableEq, Repr

/-- `types.Validator`, the fields consensus reads. -/
structure Validator where
  address : Addr
  publicKey : Bytes
  stake : Nat := 0
  power : Nat := 0
  index : Nat := 0
deriving DecidableEq, Repr

/-- `types.ValidatorSet`: ordered sequence plus the positional index map. -/
structure ValidatorSet where
  validators : List Validator
  totalPower : Nat
  indexByAddr : List (Addr × Nat)
deriving DecidableEq, Repr

/-! ## Canonical encodings (`pkg/encoding/protobuf.go`, `pkg/encoding/hash.go`) -/

/-- `encoding.MarshalTransaction`. -/
def marshalTransaction (t : Transaction) : Bytes :=
  appendTag 1 2 ++ appendBytes t.fromAddr ++
  appendTag 2 2 ++ appendBytes t.toAddr ++
  appendTag 3 0 ++ appendVarint t.nonce ++
  appendTag 4 2 ++ appendBytes t.payload ++
  appendTag 5 2 ++ appendBytes t.signature

/-- `uint64(ts)` for the block timestamp: two's-complement reinterpretation. -/
def intAsU64 (i : Int) : Nat := (i % (U64MOD : Int)).toNat

/-- `encoding.MarshalBlock`. -/
def marshalBlock (b : Block) : Bytes :=
  appendTag 1 0 ++ appendVarint b.height ++
  appendTag 2 2 ++ appendBytes b.prevHash ++
  appendTag 3 2 ++ appendBytes b.stateRoot ++
  appendTag 4 0 ++ appendVarint (intAsU64 b.timestamp) ++
  appendTag 5 2 ++ appendBytes b.proposer ++
  (b.transactions.map (fun t => appendTag 6 2 ++ appendBytes (marshalTransaction t))).flatten ++
  (b.validatorSigs.map (fun s => appendTag 7 2 ++ appendBytes s)).flatten

/-- `encoding.MarshalPrecommitVote`. -/
def marshalPrecommitVote (v : PrecommitVote) : Bytes :=
  appendTag 1 2 ++ appendBytes v.blockHash ++
  appendTag 2 0 ++ appendVarint v.height ++
  appendTag 3 0 ++ appendVarint v.round ++
  appendTag 4 2 ++ appendBytes v.validator ++
  appendTag 5 2 ++ appendBytes v.signature

/-- `consensus.PrecommitSignBytes`: encoding with the signature cleared. -/
def precommitSignBytes (v : PrecommitVote) : Bytes :=
  marshalPrecommitVote { v with signature := [] }

/-- `tx.SigningBytes`: transaction encoding with the signature cleared. -/
def txSigningBytes (t : Transaction) : Bytes :=
  marshalTransaction { t with signature := [] }

/-! ## RC engine (`pkg/rc/rc.go`) -/

namespace rc

/-- `rc.Params`. -/
structure Params where
  alpha : Nat := 0
  beta : Nat := 0
  cSize : Nat := 0
  cCompute : Nat := 0
  cStorage : Nat := 0
  maxSkewSec : Int := 0
  windowN : Nat := 0
deriving DecidableEq, Repr

/-- Ascending insertion used to model Go's `sort.Slice` on `[]int64`
(the sorted value list is unique, so stability is immaterial). -/
def insertAsc (x : Int) : List Int → List Int
  | [] => [x]
  | y :: ys => if x ≤ y then x :: y :: ys else y :: insertAsc x ys

def sortAsc : List Int → List Int
  | [] => []
  | x :: xs => insertAsc x (sortAsc xs)

/-- `rc.Median`: sort ascending, take `cp[len/2]` for odd length and the
lower middle `cp[len/2-1]` for even length; `0` for the empty slice. -/
def Median (timestamps : List Int) : Int :=
  if timestamps.length = 0 then 0
  else
    let cp := sortAsc timestamps
    let m := cp.length / 2
    if cp.length % 2 = 1 then cp.getD m 0
    else cp.getD (m - 1) 0

/-- `rc.EffectiveTime`. -/
def EffectiveTime (blockTimestamp : Int) (lastTimestamps : List Int) (maxSkew : Int) : Int :=
  if lastTimestamps.length = 0 then blockTimestamp
  else
    let median := Median lastTimestamps
    let lo := median - maxSkew
    let hi := median + maxSkew
    if blockTimestamp < lo then lo
    else if blockTimestamp > hi then hi
    else blockTimestamp

/-- `Params.RCMax`: `alpha * stake` saturating at `^uint64(0)`. -/
def Params.RCMax (p : Params) (stake : Nat) : Nat :=
  if stake = 0 ∨ p.alpha = 0 then 0
  else if U64MAX / p.alpha < stake then U64MAX
  else p.alpha * stake

/-- `Params.Regen`: regenerate RC over the effective-time delta, saturating
at every multiplication and addition, then cap at `RCMax`. -/
def Params.Regen (p : Params) (currentRC stake : Nat) (lastEffectiveTime newEffectiveTime : Int) :
    Nat × Int :=
  if stake = 0 then (0, newEffectiveTime)
  else
    let dt : Int := max (newEffectiveTime - lastEffectiveTime) 0
    let regen0 : Nat := dt.toNat
    let regen : Nat :=
      if p.beta ≠ 0 then
        let r1 := if U64MAX / p.beta < regen0 then U64MAX else regen0 * p.beta
        -- the `stake > 0` branch of the source is always taken here
        if U64MAX / stake < r1 then U64MAX else r1 * stake
      else regen0
    let rc :=
      if 0 < regen then
        if U64MAX - regen < currentRC then U64MAX else currentRC + regen
      else currentRC
    let rcMax := p.RCMax stake
    (if rcMax < rc then rcMax else rc, newEffectiveTime)

/-- `Params.Cost`: `c_size·size + c_compute·instructions + c_storage·writes`
with the source's saturating `add` closure. -/
def costAdd (total a b : Nat) : Nat :=
  if a = 0 ∨ b = 0 then total
  else if U64MAX / a < b then U64MAX
  else if U64MAX - a * b < total then U64MAX
  else total + a * b

def Params.Cost (p : Params) (sizeBytes wasmInstructions stateWrites : Nat) : Nat :=
  costAdd (costAdd (costAdd 0 p.cSize sizeBytes) p.cCompute wasmInstructions)
    p.cStorage stateWrites

end rc

/-! ## Transaction payloads (`pkg/tx/types.go`, `pkg/tx/payload_encoding.go`) -/

namespace tx

/-- The payload variant taxonomy. -/
inductive Payload where
  | transfer (toAddr : Addr) (amount : Nat)
  | stakeDelegate (validator : Addr) (amount : Nat)
  | stakeUndelegate (validator : Addr) (amount : Nat)
  | contractDeploy (wasmCode salt : Bytes)
  | contractCall (address : Addr) (method : Bytes) (args : List Bytes)
  | governanceProposal (title description paramKey paramValue : Bytes)
  | governanceVote (proposalID : Nat) (voteOption : Nat)
deriving DecidableEq, Repr

/-- `tx.PayloadEnvelope`. -/
structure PayloadEnvelope where
  payload : Payload
  senderPubKey : Bytes := []
deriving DecidableEq, Repr

/-- `tx.EncodePayload`: variant wrapped under its envelope tag, plus the
optional tag-8 `sender_pubkey`. -/
def encodePayload (p : Payload) (senderPubKey : Bytes) : Bytes :=
  let inner : Bytes :=
    match p with
    | .transfer toA amount =>
        appendTag 1 2 ++ appendBytes toA ++ appendTag 2 0 ++ appendVarint amount
    | .stakeDelegate validator amount =>
        appendTag 1 2 ++ appendBytes validator ++ appendTag 2 0 ++ appendVarint amount
    | .stakeUndelegate validator amount =>
        appendTag 1 2 ++ appendBytes validator ++ appendTag 2 0 ++ appendVarint amount
    | .contractDeploy code salt =>
        appendTag 1 2 ++ appendBytes code ++ appendTag 2 2 ++ appendBytes salt
    | .contractCall address method args =>
        appendTag 1 2 ++ appendBytes address ++ appendTag 2 2 ++ appendBytes method ++
        (args.map (fun a => appendTag 3 2 ++ appendBytes a)).flatten
    | .governanceProposal t d k v =>
        appendTag 1 2 ++ appendBytes t ++ appendTag 2 2 ++ appendBytes d ++
        appendTag 3 2 ++ appendBytes k ++ appendTag 4 2 ++ appendBytes v
    | .governanceVote id opt =>
        appendTag 1 0 ++ appendVarint id ++ appendTag 2 0 ++ appendVarint opt
  let envTag : Nat :=
    match p with
    | .transfer .. => 1
    | .stakeDelegate .. => 2
    | .stakeUndelegate .. => 3
    | .contractDeploy .. => 4
    | .contractCall .. => 5
    | .governanceProposal .. => 6
    | .governanceVote .. => 7
  appendTag envTag 2 ++ appendBytes inner ++
  (if senderPubKey.length > 0 then appendTag 8 2 ++ appendBytes senderPubKey else [])

/-- Inner decoder for the two-field `(bytes, varint)` messages
(`decodeTransfer`, `decodeStakeDelegate`, `decodeStakeUndelegate`):
later duplicates overwrite, unknown fields are skipped. -/
def decodeBytesVarintAux (mk : Addr → Nat → Payload) :
    Nat → Bytes → Addr → Nat → Option Payload
  | 0, _, _, _ => none
  | _, [], f1, f2 => some (mk f1 f2)
  | fuel + 1, b, f1, f2 => do
    let (num, typ, n) ← consumeTag b
    let b1 := b.drop n
    match num with
    | 1 =>
      if typ ≠ 2 then none else do
      let (v, n2) ← consumeBytes b1
      decodeBytesVarintAux mk fuel (b1.drop n2) v f2
    | 2 =>
      if typ ≠ 0 then none else do
      let (v, n2) ← consumeVarint b1
      decodeBytesVarintAux mk fuel (b1.drop n2) f1 v
    | _ => do
      let n2 ← consumeFieldValue typ b1
      decodeBytesVarintAux mk fuel (b1.drop n2) f1 f2

def decodeTransfer (b : Bytes) : Option Payload :=
  decodeBytesVarintAux .transfer (b.length + 1) b [] 0

def decodeStakeDelegate (b : Bytes) : Option Payload :=
  decodeBytesVarintAux .stakeDelegate (b.length + 1) b [] 0

def decodeStakeUndelegate (b : Bytes) : Option Payload :=
  decodeBytesVarintAux .stakeUndelegate (b.length + 1) b [] 0

/-- `decodeContractDeploy`: fields 1 wasm code, 2 salt, both bytes. -/
def decodeContractDeployAux :
    Nat → Bytes → Bytes → Bytes → Option Payload
  | 0, _, _, _ => none
  | _, [], code, salt => some (.contractDeploy code salt)
  | fuel + 1, b, code, salt => do
    let (num, typ, n) ← consumeTag b
    let b1 := b.drop n
    match num with
    | 1 =>
      if typ ≠ 2 then none else do
      let (v, n2) ← consumeBytes b1
      decodeContractDeployAux fuel (b1.drop n2) v salt
    | 2 =>
      if typ ≠ 2 then none else do
      let (v, n2) ← consumeBytes b1
      decodeContractDeployAux fuel (b1.drop n2) code v
    | _ => do
      let n2 ← consumeFieldValue typ b1
      decodeContractDeployAux fuel (b1.drop n2) code salt

def decodeContractDeploy (b : Bytes) : Option Payload :=
  decodeContractDeployAux (b.length + 1) b [] []

/-- `decodeContractCall`: fields 1 address, 2 method, repeated 3 args. -/
def decodeContractCallAux :
    Nat → Bytes → Addr → Bytes → List Bytes → Option Payload
  | 0, _, _, _, _ => none
  | _, [], address, method, args => some (.contractCall address method args)
  | fuel + 1, b, address, method, args => do
    let (num, typ, n) ← consumeTag b
    let b1 := b.drop n
    match num with
    | 1 =>
      if typ ≠ 2 then none else do
      let (v, n2) ← consumeBytes b1
      decodeContractCallAux fuel (b1.drop n2) v method args
    | 2 =>
      if typ ≠ 2 then none else do
      let (v, n2) ← consumeBytes b1
      decodeContractCallAux fuel (b1.drop n2) address v args
    | 3 =>
      if typ ≠ 2 then none else do
      let (v, n2) ← consumeBytes b1
      decodeContractCallAux fuel (b1.drop n2) address method (args ++ [v])
    | _ => do
      let n2 ← consumeFieldValue typ b1
      decodeContractCallAux fuel (b1.drop n2) address method args

def decodeContractCall (b : Bytes) : Option Payload :=
  decodeContractCallAux (b.length + 1) b [] [] []

/-- `decodeGovernanceProposal`: four bytes fields. -/
def decodeGovernanceProposalAux :
    Nat → Bytes → Bytes → Bytes → Bytes → Bytes → Option Payload
  | 0, _, _, _, _, _ => none
  | _, [], t, d, k, v => some (.governanceProposal t d k v)
  | fuel + 1, b, t, d, k, v => do
    let (num, typ, n) ← consumeTag b
    let b1 := b.drop n
    match num with
    | 1 =>
      if typ ≠ 2 then none else do
      let (x, n2) ← consumeBytes b1
      decodeGovernanceProposalAux fuel (b1.drop n2) x d k v
    | 2 =>
      if typ ≠ 2 then none else do
      let (x, n2) ← consumeBytes b1
      decodeGovernanceProposalAux fuel (b1.drop n2) t x k v
    | 3 =>
      if typ ≠ 2 then none else do
      let (x, n2) ← consumeBytes b1
      decodeGovernanceProposalAux fuel (b1.drop n2) t d x v
    | 4 =>
      if typ ≠ 2 then none else do
      let (x, n2) ← consumeBytes b1
      decodeGovernanceProposalAux fuel (b1.drop n2) t d k x
    | _ => do
      let n2 ← consumeFieldValue typ b1
      decodeGovernanceProposalAux fuel (b1.drop n2) t d k v

def decodeGovernanceProposal (b : Bytes) : Option Payload :=
  decodeGovernanceProposalAux (b.length + 1) b [] [] [] []

/-- `decodeGovernanceVote`: two varint fields. -/
def decodeGovernanceVoteAux :
    Nat → Bytes → Nat → Nat → Option Payload
  | 0, _, _, _ => none
  | _, [], id, opt => some (.governanceVote id opt)
  | fuel + 1, b, id, opt => do
    let (num, typ, n) ← consumeTag b
    let b1 := b.drop n
    match num with
    | 1 =>
      if typ ≠ 0 then none else do
      let (v, n2) ← consumeVarint b1
      decodeGovernanceVoteAux fuel (b1.drop n2) v opt
    | 2 =>
      if typ ≠ 0 then none else do
      let (v, n2) ← consumeVarint b1
      decodeGovernanceVoteAux fuel (b1.drop n2) id v
    | _ => do
      let n2 ← consumeFieldValue typ b1
      decodeGovernanceVoteAux fuel (b1.drop n2) id opt

def decodeGovernanceVote (b : Bytes) : Option Payload :=
  decodeGovernanceVoteAux (b.length + 1) b 0 0

/-- One envelope field: decode the variant under tags 1–7 with duplicate
rejection, tag 8 `sender_pubkey` with duplicate rejection, unknown fields
skipped.  The loop of `tx.DecodePayload`. -/
def decodePayloadAux :
    Nat → Bytes → Option Payload → Bytes → Option (Option Payload × Bytes)
  | 0, _, _, _ => none
  | _, [], acc, pk => some (acc, pk)
  | fuel + 1, b, acc, pk => do
    let (num, typ, n) ← consumeTag b
    let b1 := b.drop n
    let decodeVariant (dec : Bytes → Option Payload) :
        Option (Option Payload × Bytes) := do
      if typ ≠ 2 then none else do
      let (inner, n2) ← consumeBytes b1
      if acc.isSome then none else do
      let p ← dec inner
      decodePayloadAux fuel (b1.drop n2) (some p) pk
    match num with
    | 1 => decodeVariant decodeTransfer
    | 2 => decodeVariant decodeStakeDelegate
    | 3 => decodeVariant decodeStakeUndelegate
    | 4 => decodeVariant decodeContractDeploy
    | 5 => decodeVariant decodeContractCall
    | 6 => decodeVariant decodeGovernanceProposal
    | 7 => decodeVariant decodeGovernanceVote
    | 8 =>
      if typ ≠ 2 then none else do
      if pk.length > 0 then none else do
      let (v, n2) ← consumeBytes b1
      decodePayloadAux fuel (b1.drop n2) acc v
    | _ => do
      let n2 ← consumeFieldValue typ b1
      decodePayloadAux fuel (b1.drop n2) acc pk

/-- `tx.DecodePayload`: empty input and missing variant are errors. -/
def decodePayload (b : Bytes) : Option PayloadEnvelope := do
  if b.length = 0 then none else do
  let (acc, pk) ← decodePayloadAux (b.length + 1) b none []
  let p ← acc
  some { payload := p, senderPubKey := pk }

end tx

/-! ## Sender pubkey resolution and signature check (`pkg/tx/verify.go`)

`crypto.AddressFromPubKey` (SHA-256 + bech32) and `crypto.VerifyEd25519`
are external crypto primitives; the embedding takes them as the function
parameters `deriveAddr` and `verifyEd`. -/

namespace tx

/-- `tx.ResolveSenderPubKey`: returns the pubkey to verify against and
whether it must be registered into the account (first spend). -/
def ResolveSenderPubKey (deriveAddr : Bytes → Option Addr)
    (fromAddr : Addr) (stored payloadPubKey : Bytes) : Option (Bytes × Bool) :=
  if payloadPubKey.length > 0 ∧ payloadPubKey.length ≠ 32 then none
  else if stored.length > 0 ∧ stored.length ≠ 32 then none
  else if stored.length = 0 then
    if payloadPubKey.length = 0 then none
    else match deriveAddr payloadPubKey with
      | none => none
      | some derived => if derived = fromAddr then some (payloadPubKey, true) else none
  else
    if payloadPubKey.length > 0 ∧ payloadPubKey ≠ stored then none
    else match deriveAddr stored with
      | none => none
      | some derived => if derived = fromAddr then some (stored, false) else none

/-- `tx.VerifySignature`: length checks, then Ed25519 verification of the
transaction's signing bytes. -/
def VerifySignature (verifyEd : Bytes → Bytes → Bytes → Bool)
    (txn : Transaction) (pubKey : Bytes) : Bool :=
  pubKey.length = 32 && txn.signature.length = 64 &&
    verifyEd pubKey (txSigningBytes txn) txn.signature

end tx

/-! ## State engine (`pkg/state/state.go`)

The pebble indexed batch backing `get`/`set` is modelled as an association
list from address to account; `get` sees every earlier `set` of the same
batch, exactly like `getAccountFromReader` over an indexed batch.  The
contract engine of the claims under study is `nil` (as in the mempool and
RC paths), so the two contract payload variants fail exactly as the
source's `engine == nil` check does. -/

namespace state

/-- The accounts visible through one indexed batch. -/
abbrev Store := List (Addr × Account)

/-- `getAccountFromReader`: `none` when the key is absent. -/
def storeGet (st : Store) (addr : Addr) : Option Account :=
  (st.find? (fun kv => kv.1 = addr)).map (·.2)

/-- `setAccountWithWriter`: write the account under its address key. -/
def storeSet (st : Store) (acct : Account) : Store :=
  if st.any (fun kv => kv.1 = acct.address) then
    st.map (fun kv => if kv.1 = acct.address then (kv.1, acct) else kv)
  else st ++ [(acct.address, acct)]

/-- Total `balance + stake` held by the accounts of a batch. -/
def sumBalanceStake (st : Store) : Nat :=
  st.foldr (fun kv acc => kv.2.balance + kv.2.stake + acc) 0

/-- Whether the account stored at `addr` satisfies `rc ≤ rc_max`. -/
def rcWithinMax (st : Store) (addr : Addr) : Bool :=
  match storeGet st addr with
  | some a => a.rc ≤ a.rcMax
  | none => true

/-- `state.applyTransactionWithKV` for a `nil` contract engine: resolve the
sender, verify, regenerate RC, check the nonce, dispatch the payload,
charge cost, bump the nonce and write back. -/
def applyTransactionWithKV (deriveAddr : Bytes → Option Addr)
    (verifyEd : Bytes → Bytes → Bytes → Bool) (p : rc.Params)
    (effectiveTime : Int) (preview : Bool) (st : Store)
    (txn : Transaction) : Option Store := do
  if txn.fromAddr = [] ∨ txn.toAddr = [] then none else do
  let sender0 := (storeGet st txn.fromAddr).getD { address := txn.fromAddr }
  let env ← tx.decodePayload txn.payload
  let (pubKey, register) ←
    tx.ResolveSenderPubKey deriveAddr txn.fromAddr sender0.pubkey env.senderPubKey
  if ¬ tx.VerifySignature verifyEd txn pubKey then none else do
  let sender1 := if register then { sender0 with pubkey := pubKey } else sender0
  let (rcNew, tNew) :=
    p.Regen sender1.rc sender1.stake sender1.lastRCEffectiveTime effectiveTime
  let sender2 := { sender1 with
    rc := rcNew, lastRCEffectiveTime := tNew, rcMax := p.RCMax sender1.stake }
  if sender2.nonce ≠ txn.nonce then none else do
  let sizeBytes := marshalTransaction txn
  let (instructions, stateWrites, st1, sender3) ←
    (match env.payload with
     | .transfer toA amount =>
       if sender2.balance < amount then none
       else
         let senderD := { sender2 with balance := sender2.balance - amount }
         let receiver := (storeGet st toA).getD { address := toA }
         let receiver1 := { receiver with balance := (receiver.balance + amount) % U64MOD }
         some ((0 : Nat), (2 : Nat), storeSet st receiver1, senderD)
     | .stakeDelegate _ amount =>
       if sender2.balance < amount then none
       else
         some (0, 1, st, { sender2 with
           balance := sender2.balance - amount,
           stake := (sender2.stake + amount) % U64MOD })
     | .stakeUndelegate _ amount =>
       if sender2.stake < amount then none
       else
         some (0, 1, st, { sender2 with
           stake := sender2.stake - amount,
           balance := (sender2.balance + amount) % U64MOD })
     | .contractDeploy _ _ => none   -- "contract engine not configured"
     | .contractCall _ _ _ => none   -- "contract engine not configured"
     | .governanceProposal _ _ _ _ => some (0, 1, st, sender2)
     | .governanceVote _ _ => some (0, 1, st, sender2))
  let cost := p.Cost sizeBytes.length instructions stateWrites
  if sender3.rc < cost then none else do
  let sender4 := { sender3 with
    rc := sender3.rc - cost,
    nonce := (sender3.nonce + 1) % U64MOD,
    rcMax := p.RCMax sender3.stake }
  some (storeSet st1 sender4)

end state

/-! ## Mempool selection (`pkg/mempool/mempool.go`)

`SelectForBlock` keeps one candidate per sender in a `container/heap`
ordered by `txHeap.Less` (higher RC cost first, ties by ascending hex of
the SHA-256 transaction hash, which equals the bytewise hash order).  The
embedding relies on the `container/heap` contract — `heap.Pop` removes a
`Less`-minimal element — and models the heap as a list from which
`popMin` extracts the first `Less`-minimal element.  The per-sender
`senderState` (account copy and queue cursor) is carried inside the
candidate item: the Go map entry for a sender is only read when that
sender's unique heap item is popped, so the fused representation is
observationally identical.  The `Coster` interface is the parameter
`costFn` (`none` = Go error, aborting selection) and
`encoding.HashTransaction` (SHA-256 of the canonical encoding) is the
parameter `hashTx`. -/

namespace mempool

/-- `txItem` plus the popped sender's `senderState`. -/
structure TxItem where
  txn : Transaction
  cost : Nat
  hash : Bytes
  sender : Addr
  acctNonce : Nat
  acctRC : Nat
  queueRest : List Transaction
deriving DecidableEq, Repr

/-- `txHeap.Less`. -/
def lessItem (a b : TxItem) : Bool :=
  if a.cost ≠ b.cost then decide (b.cost < a.cost) else bytesLt a.hash b.hash

/-- The `Less`-least element of `x :: l` (earliest among `Less`-ties,
which only arise between items of equal cost and equal hash). -/
def minItem (x : TxItem) (l : List TxItem) : TxItem :=
  l.foldl (fun best y => if lessItem y best then y else best) x

/-- `heap.Pop`: remove a `Less`-minimal element. -/
def popMin : List TxItem → Option (TxItem × List TxItem)
  | [] => none
  | x :: xs => some (minItem x xs, (x :: xs).erase (minItem x xs))

/-- The seeding loop: per sender, push the head transaction when the
account exists, the head's nonce matches and RC covers its cost; a cost
error aborts the whole selection. -/
def seed (costFn : Transaction → Option Nat) (hashTx : Transaction → Bytes)
    (getAcct : Addr → Option Account) :
    List (Addr × List Transaction) → Option (List TxItem)
  | [] => some []
  | (addr, queue) :: rest => do
    match getAcct addr, queue with
    | none, _ => seed costFn hashTx getAcct rest
    | some _, [] => seed costFn hashTx getAcct rest
    | some acct, headTx :: queueRest =>
      if headTx.nonce ≠ acct.nonce then seed costFn hashTx getAcct rest
      else do
        let c ← costFn headTx
        if acct.rc < c then seed costFn hashTx getAcct rest
        else do
          let tail ← seed costFn hashTx getAcct rest
          some ({ txn := headTx, cost := c, hash := hashTx headTx, sender := addr,
                  acctNonce := acct.nonce, acctRC := acct.rc,
                  queueRest := queueRest } :: tail)

/-- The candidate a popped item pushes for its sender, after applying the
popped transaction to the local account copy (`Nonce++`,
`RC -= cost` saturating at 0). -/
def nextItems (costFn : Transaction → Option Nat) (hashTx : Transaction → Bytes)
    (item : TxItem) : Option (List TxItem) :=
  let nonce1 := (item.acctNonce + 1) % U64MOD
  let rc1 := if item.cost ≤ item.acctRC then item.acctRC - item.cost else 0
  match item.queueRest with
  | [] => some []
  | next :: queueRest2 =>
    if next.nonce ≠ nonce1 then some []
    else do
      let c ← costFn next
      if rc1 < c then some []
      else some [{ txn := next, cost := c, hash := hashTx next, sender := item.sender,
                   acctNonce := nonce1, acctRC := rc1, queueRest := queueRest2 }]

/-- The selection loop: pop, record, push the popped sender's next head. -/
def selectLoop (costFn : Transaction → Option Nat) (hashTx : Transaction → Bytes) :
    Nat → List TxItem → Option (List Transaction)
  | 0, _ => some []
  | _ + 1, [] => some []
  | n + 1, x :: xs => do
    match popMin (x :: xs) with
    | none => some []
    | some (item, rest) => do
      let pushed ← nextItems costFn hashTx item
      let tail ← selectLoop costFn hashTx n (rest ++ pushed)
      some (item.txn :: tail)

/-- `Mempool.SelectForBlock`. -/
def SelectForBlock (costFn : Transaction → Option Nat)
    (hashTx : Transaction → Bytes) (getAcct : Addr → Option Account)
    (pool : List (Addr × List Transaction)) (maxTxs : Int) :
    Option (List Transaction) :=
  if maxTxs ≤ 0 then some []
  else do
    let items ← seed costFn hashTx getAcct pool
    selectLoop costFn hashTx maxTxs.toNat items

/-! Spec-side formulation of the selection step, following the wording of
§4.8: "repeatedly pop the head with *highest RC-cost* (tie-break by
*ascending* SHA-256 hash …)".  `specPop` first collects the candidates of
maximal cost and then takes the one with the smallest hash; the claim
compares the source's heap-based `SelectForBlock` against
`SelectForBlockSpec` built from this chooser. -/

/-- The candidates whose RC cost is maximal. -/
def maxCostCandidates (items : List TxItem) : List TxItem :=
  items.filter (fun x => items.all (fun y => y.cost ≤ x.cost))

/-- The candidate with the smallest hash (earliest among equal hashes). -/
def minHashItem (x : TxItem) (l : List TxItem) : TxItem :=
  l.foldl (fun best y => if bytesLt y.hash best.hash then y else best) x

/-- Pop the highest-cost candidate, ties broken by ascending hash. -/
def specPop (items : List TxItem) : Option (TxItem × List TxItem) :=
  match maxCostCandidates items with
  | [] => none
  | c :: cs => some (minHashItem c cs, items.erase (minHashItem c cs))

/-- The selection loop driven by the spec-worded chooser. -/
def specLoop (costFn : Transaction → Option Nat) (hashTx : Transaction → Bytes) :
    Nat → List TxItem → Option (List Transaction)
  | 0, _ => some []
  | _ + 1, [] => some []
  | n + 1, x :: xs => do
    match specPop (x :: xs) with
    | none => some []
    | some (item, rest) => do
      let pushed ← nextItems costFn hashTx item
      let tail ← specLoop costFn hashTx n (rest ++ pushed)
      some (item.txn :: tail)

/-- Selection as described by the spec's words (same seeding, spec chooser). -/
def SelectForBlockSpec (costFn : Transaction → Option Nat)
    (hashTx : Transaction → Bytes) (getAcct : Addr → Option Account)
    (pool : List (Addr × List Transaction)) (maxTxs : Int) :
    Option (List Transaction) :=
  if maxTxs ≤ 0 then some []
  else do
    let items ← seed costFn hashTx getAcct pool
    specLoop costFn hashTx maxTxs.toNat items

/-- The transactions a candidate still owns: its own transaction plus the
untouched remainder of its sender's queue. -/
def ownTxs (it : TxItem) : List Transaction := it.txn :: it.queueRest

/-- All transactions of the pool have pairwise-distinct hashes (SHA-256 of
distinct canonical encodings; a collision is the only way to violate it). -/
def PoolSep (hashTx : Transaction → Bytes) (pool : List (Addr × List Transaction)) : Prop :=
  ((pool.map Prod.snd).flatten).Pairwise (fun t1 t2 => hashTx t1 ≠ hashTx t2)

/-- The transactions owned by the live candidates have pairwise-distinct
hashes. -/
def ItemsSep (hashTx : Transaction → Bytes) (items : List TxItem) : Prop :=
  ((items.map ownTxs).flatten).Pairwise (fun t1 t2 => hashTx t1 ≠ hashTx t2)

/-- Every candidate's cached hash is the hash of its transaction. -/
def HashOk (hashTx : Transaction → Bytes) (items : List TxItem) : Prop :=
  ∀ it ∈ items, it.hash = hashTx it.txn

/-- Classification of one pool entry during seeding: `none` = cost error
aborting the selection, `some none` = entry skipped, `some (some it)` =
candidate pushed. -/
def seedEntry (costFn : Transaction → Option Nat) (hashTx : Transaction → Bytes)
    (getAcct : Addr → Option Account) (e : Addr × List Transaction) :
    Option (Option TxItem) :=
  match getAcct e.1, e.2 with
  | none, _ => some none
  | some _, [] => some none
  | some acct, headTx :: queueRest =>
    if headTx.nonce ≠ acct.nonce then some none
    else
      match costFn headTx with
      | none => none
      | some c =>
        if acct.rc < c then some none
        else some (some { txn := headTx, cost := c, hash := hashTx headTx,
                          sender := e.1, acctNonce := acct.nonce, acctRC := acct.rc,
                          queueRest := queueRest })

end mempool

/-! ## BFT engine (`pkg/consensus/hotstuff.go`, `pkg/consensus/qc.go`,
`pkg/consensus/signing.go`)

`crypto.Verifier.Verify(msg, sig, pub)` is the parameter `verify`; the
node's `crypto.Signer.Sign` is the parameter `signer`; `encoding.HashBlock`
is SHA-256 (parameter `sha256`) of `marshalBlock`. -/

namespace consensus

/-- `types.Proposal`. -/
structure Proposal where
  block : Block
  round : Nat
  proposerSig : Bytes
deriving DecidableEq, Repr

/-- `encoding.MarshalProposal`. -/
def marshalProposal (p : Proposal) : Bytes :=
  appendTag 1 2 ++ appendBytes (marshalBlock p.block) ++
  appendTag 2 0 ++ appendVarint p.round ++
  appendTag 3 2 ++ appendBytes p.proposerSig

/-- `consensus.ProposalSignBytes`: proposal encoding with the proposer
signature cleared and the block's `validator_sigs` cleared. -/
def proposalSignBytes (p : Proposal) : Bytes :=
  marshalProposal { p with proposerSig := [],
                           block := { p.block with validatorSigs := [] } }

/-- Association-list lookup standing in for the Go maps
(`ValidatorSet.IndexByAddr`, the DPoS validator registry). -/
def lookup (m : List (Addr × α)) (a : Addr) : Option α :=
  (m.find? (fun kv => kv.1 = a)).map (·.2)

/-- `qc.SigBitmap[i/8] & (1 << (i % 8)) != 0`; the callers check the bitmap
length first, so the out-of-range default is never consulted. -/
def bitSet (bitmap : Bytes) (i : Nat) : Bool :=
  Nat.testBit (bitmap.getD (i / 8) 0) (i % 8)

/-- `consensus.VerifyQC` for a non-nil QC and validator set: non-empty set,
exact bitmap length, and for every set bit a present signature verifying
the synthetic precommit vote under the validator's registered pubkey. -/
def VerifyQC (verify : Bytes → Bytes → Bytes → Bool)
    (qc : QuorumCertificate) (set : ValidatorSet) : Bool :=
  if set.validators.length = 0 then false
  else if qc.sigBitmap.length ≠ (set.validators.length + 7) / 8 then false
  else set.validators.enum.all (fun iv =>
    let i := iv.1
    let v := iv.2
    if ¬ bitSet qc.sigBitmap i then true
    else if qc.signatures.length ≤ i ∨ (qc.signatures.getD i []).length = 0 then false
    else
      verify
        (precommitSignBytes
          { blockHash := qc.blockHash, height := qc.height, round := qc.round,
            validator := v.address, signature := [] })
        (qc.signatures.getD i []) v.publicKey)

/-- The power carried by the bitmap's set bits (the quantity the spec's
QC-validity threshold is about). -/
def bitmapSignedPower (set : ValidatorSet) (bitmap : Bytes) : Nat :=
  (set.validators.enum.map (fun iv => if bitSet bitmap iv.1 then iv.2.power else 0)).sum

/-- The consensus-engine fields `tryBuildQC`, `ProposeBlock` and the
proposer walk read. -/
structure EngineView where
  validatorSet : ValidatorSet
  height : Nat
  round : Nat
  lastFinalized : Bytes
  validatorAddr : Addr
deriving Repr

/-- The vote-accumulation loop of `tryBuildQC`: positional signatures,
bitmap bits and the (uint64) signed-power sum.  Go map iteration order is
arbitrary; every accumulated component is order-independent because each
vote touches its own index. -/
def votesFold (set : ValidatorSet) (votes : List (Addr × PrecommitVote)) :
    Nat × List Bytes × Bytes :=
  votes.foldl
    (fun acc av =>
      match lookup set.indexByAddr av.1 with
      | none => acc
      | some idx =>
        ((acc.1 + (set.validators.getD idx { address := [], publicKey := [] }).power) % U64MOD,
         acc.2.1.set idx av.2.signature,
         acc.2.2.set (idx / 8) ((acc.2.2.getD (idx / 8) 0) ||| 2 ^ (idx % 8))))
    (0, List.replicate set.validators.length [],
     List.replicate ((set.validators.length + 7) / 8) 0)

/-- `Engine.tryBuildQC` (uint64 arithmetic in the threshold comparison). -/
def tryBuildQC (e : EngineView) (blockHash : Bytes)
    (votes : List (Addr × PrecommitVote)) : Option QuorumCertificate :=
  let totalPower := e.validatorSet.totalPower
  if totalPower = 0 then none
  else
    let acc := votesFold e.validatorSet votes
    if (acc.1 * 3) % U64MOD ≤ (totalPower * 2) % U64MOD then none
    else some { blockHash := blockHash, height := (e.height + 1) % U64MOD,
                round := e.round, sigBitmap := acc.2.2, signatures := acc.2.1 }

/-- The proposer walk of `isExpectedProposerLocked`: first validator whose
running power total exceeds the seed. -/
def proposerWalk (seedV : Nat) : Nat → List Validator → Option Addr
  | _, [] => none
  | acc, v :: rest =>
    let acc1 := (acc + v.power) % U64MOD
    if seedV < acc1 then some v.address else proposerWalk seedV acc1 rest

/-- `Engine.isExpectedProposerLocked`. -/
def isExpectedProposer (e : EngineView) (addr : Addr) : Bool :=
  if e.validatorSet.validators.length = 0 then false
  else if e.validatorSet.totalPower = 0 then false
  else
    match proposerWalk (((e.height + e.round) % U64MOD) % e.validatorSet.totalPower)
        0 e.validatorSet.validators with
    | some leader => leader = addr
    | none => false

/-- `Engine.ProposeBlock`: mempool selection, block construction with the
zero state root, the block-hash placeholder written into `state_root`
("placeholder until state applied"), then signing and returning the
proposal.  `now` is `time.Now().Unix()`. -/
def ProposeBlock (sha256 : Bytes → Bytes) (signer : Bytes → Bytes)
    (costFn : Transaction → Option Nat) (hashTx : Transaction → Bytes)
    (getAcct : Addr → Option Account) (pool : List (Addr × List Transaction))
    (blockMaxTxs : Int) (e : EngineView) (now : Int) : Option Proposal := do
  if ¬ isExpectedProposer e e.validatorAddr then none else do
  let txs ← mempool.SelectForBlock costFn hashTx getAcct pool blockMaxTxs
  let block0 : Block :=
    { height := (e.height + 1) % U64MOD, prevHash := e.lastFinalized,
      stateRoot := List.replicate 32 0, timestamp := now,
      proposer := e.validatorAddr, transactions := txs,
      validatorSigs := List.replicate e.validatorSet.validators.length [] }
  let blockHash := sha256 (marshalBlock block0)
  let block1 := { block0 with stateRoot := blockHash }
  let prop0 : Proposal := { block := block1, round := e.round, proposerSig := [] }
  some { prop0 with proposerSig := signer (proposalSignBytes prop0) }

end consensus

/-! ## DPoS slashing (`pkg/consensus/dpos.go`) -/

namespace consensus

/-- The `types.Validator` fields the slashing path touches. -/
structure DposValidator where
  address : Addr
  stake : Nat := 0
  power : Nat := 0
  jailedUntilEpoch : Nat := 0
deriving DecidableEq, Repr

/-- The `DPoS.validators` registry map. -/
abbrev DposState := List (Addr × DposValidator)

/-- `DPoS.SlashDoubleSign`: `slash = stake·bps/10000` (uint64), subtract when
covered, power reset to stake, jail until `current_epoch + jail_epochs`. -/
def SlashDoubleSign (d : DposState) (validator : Addr)
    (slashBps jailEpochs currentEpoch : Nat) : Option DposState :=
  match lookup d validator with
  | none => none
  | some v =>
    let slashAmount := (v.stake * slashBps) % U64MOD / 10000
    let stake1 := if slashAmount ≤ v.stake then v.stake - slashAmount else v.stake
    let v1 := { v with stake := stake1, power := stake1,
                       jailedUntilEpoch := (currentEpoch + jailEpochs) % U64MOD }
    some (d.map (fun kv => if kv.1 = validator then (kv.1, v1) else kv))

/-- `DPoS.SlashOffline`: delegates to `SlashDoubleSign` with its own
parameter values. -/
def SlashOffline (d : DposState) (validator : Addr)
    (slashBps jailEpochs currentEpoch : Nat) : Option DposState :=
  SlashDoubleSign d validator slashBps jailEpochs currentEpoch

end consensus

/-! ## State root and block preview (`pkg/state/state.go`, `pkg/state/codec.go`)

`ComputeStateRootFromReader` itself is repository code not shipped in this
source snapshot (only its callers are); `computeStateRoot` below is
modelled from the spec. -/

namespace state

/-- `state.marshalAccount` (`pkg/state/codec.go`). -/
def marshalAccount (a : Account) : Bytes :=
  appendTag 1 2 ++ appendBytes a.address ++
  appendTag 2 0 ++ appendVarint a.balance ++
  appendTag 3 0 ++ appendVarint a.nonce ++
  appendTag 4 0 ++ appendVarint a.stake ++
  appendTag 5 0 ++ appendVarint a.rc ++
  appendTag 6 0 ++ appendVarint a.rcMax ++
  appendTag 7 0 ++ appendVarint (intAsU64 a.lastRCEffectiveTime) ++
  (if a.code.length > 0 then appendTag 8 2 ++ appendBytes a.code else []) ++
  (if a.pubkey.length > 0 then appendTag 9 2 ++ appendBytes a.pubkey else [])

/-- The `acct/` store-key prefix. -/
def acctKey (addr : Addr) : Bytes := [0x61, 0x63, 0x63, 0x74, 0x2f] ++ addr

def insertByKey (kv : Addr × Account) : List (Addr × Account) → List (Addr × Account)
  | [] => [kv]
  | kv2 :: rest =>
    if bytesLt kv.1 kv2.1 then kv :: kv2 :: rest else kv2 :: insertByKey kv rest

/-- Byte-sorted iteration order of the prefix iterator. -/
def sortByKey : List (Addr × Account) → List (Addr × Account)
  | [] => []
  | kv :: rest => insertByKey kv (sortByKey rest)

/-- One Merkle level: inner nodes `SHA-256(0x01 ‖ left ‖ right)`, the last
node duplicated on odd counts. -/
def merkleUp (sha256 : Bytes → Bytes) : List Bytes → List Bytes
  | [] => []
  | [x] => [sha256 ([1] ++ x ++ x)]
  | x :: y :: rest => sha256 ([1] ++ x ++ y) :: merkleUp sha256 rest

def merkleRootAux (sha256 : Bytes → Bytes) : Nat → List Bytes → Bytes
  | _, [] => List.replicate 32 0
  | _, [x] => x
  | 0, _ => List.replicate 32 0
  | fuel + 1, l => merkleRootAux sha256 fuel (merkleUp sha256 l)

/-- Modelled from the spec: `ComputeStateRootFromReader` (its definition is
not part of this source snapshot).  §4.3: a binary Merkle tree whose leaves
are `SHA-256(0x00 ‖ key ‖ account_bytes)` sorted by key ascending, inner
nodes `SHA-256(0x01 ‖ left ‖ right)`, odd levels duplicating the last node,
and the all-zero root for an empty state. -/
def computeStateRoot (sha256 : Bytes → Bytes) (st : Store) : Bytes :=
  let leaves := (sortByKey st).map
    (fun kv => sha256 ([0] ++ acctKey kv.1 ++ marshalAccount kv.2))
  merkleRootAux sha256 (leaves.length + 1) leaves

/-- `State.PreviewBlock`: effective time from the stored window, every
transaction replayed in preview mode over the speculative overlay, then
the root of the overlay. -/
def PreviewBlock (sha256 : Bytes → Bytes) (deriveAddr : Bytes → Option Addr)
    (verifyEd : Bytes → Bytes → Bytes → Bool) (p : rc.Params)
    (lastTimestamps : List Int) (st : Store) (block : Block) : Option Bytes := do
  let effTime := rc.EffectiveTime block.timestamp lastTimestamps p.maxSkewSec
  let final ← block.transactions.foldlM
    (fun s t => applyTransactionWithKV deriveAddr verifyEd p effTime true s t) st
  some (computeStateRoot sha256 final)

end state

/-! ## Verification of the claims -/

section Claims

/-- Saturation-by-division check: the Go pattern
`if a > MAX/b { MAX } else { a*b }` computes the saturating product. -/
theorem satMul (a b : Nat) (hb : 0 < b) :
    (if U64MAX / b < a then U64MAX else a * b) = min (a * b) U64MAX := by
  rcases le_or_lt a (U64MAX / b) with h | h
  · have hle : a * b ≤ U64MAX := (Nat.le_div_iff_mul_le hb).1 h
    rw [if_neg (Nat.not_lt.2 h), Nat.min_eq_left hle]
  · have hgt : U64MAX < a * b := by
      by_contra hc
      push_neg at hc
      exact absurd ((Nat.le_div_iff_mul_le hb).2 hc) (Nat.not_le.2 h)
    rw [if_pos h, Nat.min_eq_right hgt.le]

theorem satMulMin (x s : Nat) (hs : 1 ≤ s) :
    min (min x U64MAX * s) U64MAX = min (x * s) U64MAX := by
  rcases le_or_lt x U64MAX with h | h
  · rw [Nat.min_eq_left h]
  · have h1 : U64MAX ≤ U64MAX * s := Nat.le_mul_of_pos_right _ (by omega)
    have h2 : U64MAX ≤ x * s :=
      le_trans h1 (Nat.mul_le_mul_right _ h.le)
    rw [Nat.min_eq_right h.le]
    omega

theorem toNat_max_zero (a : Int) : (max a 0).toNat = a.toNat := by
  rcases le_total a 0 with h | h
  · rw [max_eq_right h]
    simp [Int.toNat_of_nonpos h]
  · rw [max_eq_left h]

/-- `RCMax` is the saturating product `alpha * stake`. -/
theorem rcMax_char (p : rc.Params) (stake : Nat) :
    p.RCMax stake = min (p.alpha * stake) U64MAX := by
  unfold rc.Params.RCMax
  by_cases hz : stake = 0 ∨ p.alpha = 0
  · have : p.alpha * stake = 0 := by rcases hz with h | h <;> simp [h]
    rw [if_pos hz, this]
    simp [U64MAX]
  · rw [if_neg hz, mul_comm p.alpha stake, satMul stake p.alpha (by omega)]

theorem insertAsc_length (x : Int) (l : List Int) :
    (rc.insertAsc x l).length = l.length + 1 := by
  induction l with
  | nil => rfl
  | cons y ys ih =>
    unfold rc.insertAsc
    split_ifs <;> simp [ih]

theorem sortAsc_length (l : List Int) : (rc.sortAsc l).length = l.length := by
  induction l with
  | nil => rfl
  | cons x xs ih =>
    unfold rc.sortAsc
    rw [insertAsc_length, ih, List.length_cons]

/-- C9: with an empty timestamp window `EffectiveTime` returns
the candidate timestamp unchanged — no median clamp is applied. -/
theorem C9_effective_time_empty_window (t skew : Int) :
    rc.EffectiveTime t [] skew = t := rfl

/-- C4: for a non-empty window and non-negative skew the effective time is
`clamp(t, m - skew, m + skew)` with `m` the lower-middle median of the
window (index `(n+1)/2 - 1` of the ascending sort), and the three literal
boundary scenarios hold. -/
theorem C4_effective_time_is_median_clamp :
    (∀ (w : List Int), rc.Median w = (rc.sortAsc w).getD ((w.length + 1) / 2 - 1) 0)
    ∧ (∀ (t skew : Int) (w : List Int), w ≠ [] → 0 ≤ skew →
        rc.EffectiveTime t w skew =
          max (rc.Median w - skew) (min t (rc.Median w + skew)))
    ∧ rc.EffectiveTime 200 [100, 101, 102, 103, 104] 5 = 107
    ∧ rc.EffectiveTime 90 [100, 101, 102, 103, 104] 5 = 97
    ∧ rc.EffectiveTime 102 [100, 101, 102, 103, 104] 5 = 102 := by
  refine ⟨?_, ?_, by decide, by decide, by decide⟩
  · intro w
    unfold rc.Median
    by_cases h : w.length = 0
    · have : w = [] := List.length_eq_zero.1 h
      subst this
      simp [rc.sortAsc]
    · rw [if_neg h]
      show (if (rc.sortAsc w).length % 2 = 1 then
          (rc.sortAsc w).getD ((rc.sortAsc w).length / 2) 0
        else (rc.sortAsc w).getD ((rc.sortAsc w).length / 2 - 1) 0) = _
      rw [sortAsc_length]
      by_cases hp : w.length % 2 = 1
      · rw [if_pos hp]
        congr 1
        omega
      · rw [if_neg hp]
        congr 1
        omega
  · intro t skew w hw hs
    unfold rc.EffectiveTime
    have hlen : ¬ w.length = 0 := by
      simpa [List.length_eq_zero] using hw
    rw [if_neg hlen]
    show (if t < rc.Median w - skew then rc.Median w - skew
      else if t > rc.Median w + skew then rc.Median w + skew else t) = _
    split_ifs with h1 h2 <;> rw [max_def, min_def] <;> split_ifs <;> omega

/-- Witness for C4 at a concrete window. -/
theorem C4_witness :
    rc.EffectiveTime 5 [100] 0 = max (rc.Median [100] - 0) (min 5 (rc.Median [100] + 0)) :=
  C4_effective_time_is_median_clamp.2.1 5 0 [100] (by decide) (by decide)

/-- The Go saturating-add pattern over uint64 values. -/
theorem satAdd (rcv regen : Nat) (h1 : rcv ≤ U64MAX) (h2 : regen ≤ U64MAX) :
    (if 0 < regen then (if U64MAX - regen < rcv then U64MAX else rcv + regen) else rcv) =
      min (rcv + regen) U64MAX := by
  split_ifs <;> omega

/-- C5: `Regen` returns `min(rc + regen, alpha*stake)` with
`regen = (t_new - t_last)·beta·stake` floored at 0 and every product and
sum saturating at `2^64 - 1`, together with the literal scenario
(`alpha=10, beta=2, stake=5, rc=0, dt=3` gives `rc = 30`, `rc_max = 50`). -/
theorem C5_regen_saturating_formula :
    (∀ (p : rc.Params) (currentRC stake : Nat) (tl tn : Int),
        1 ≤ p.beta → currentRC ≤ U64MAX →
        p.Regen currentRC stake tl tn =
          (min (min (currentRC + min ((tn - tl).toNat * p.beta * stake) U64MAX) U64MAX)
               (min (p.alpha * stake) U64MAX), tn))
    ∧ rc.Params.Regen { alpha := 10, beta := 2 } 0 5 0 3 = (30, 3)
    ∧ rc.Params.RCMax { alpha := 10, beta := 2 } 5 = 50 := by
  refine ⟨?_, by decide, by decide⟩
  intro p currentRC stake tl tn hb hrc
  unfold rc.Params.Regen
  by_cases hs : stake = 0
  · subst hs
    rw [if_pos rfl]
    have hz : p.alpha * 0 = 0 := by ring
    simp [hz, U64MAX, Nat.min_eq_left hrc]
  · rw [if_neg hs]
    have hb0 : p.beta ≠ 0 := by omega
    have hr1 : (if U64MAX / p.beta < (max (tn - tl) 0).toNat then U64MAX
        else (max (tn - tl) 0).toNat * p.beta) = min ((tn - tl).toNat * p.beta) U64MAX := by
      rw [toNat_max_zero, satMul _ _ (by omega)]
    simp only [if_pos hb0, ne_eq, hb0, not_false_eq_true, if_true, hr1]
    rw [satMul _ _ (by omega : 0 < stake), satMulMin _ _ (by omega : 1 ≤ stake)]
    have hreg : min ((tn - tl).toNat * p.beta * stake) U64MAX ≤ U64MAX :=
      Nat.min_le_right _ _
    rw [satAdd _ _ hrc hreg, rcMax_char]
    have hfin : ∀ (a b : Nat), (if b < a then b else a) = min a b := by
      intro a b
      split_ifs <;> omega
    rw [hfin]

/-- Witness for C5 at the scenario values. -/
theorem C5_witness :
    rc.Params.Regen { alpha := 10, beta := 2 } 0 5 0 3 =
      (min (min (0 + min (((3 : Int) - 0).toNat * 2 * 5) U64MAX) U64MAX) (min (10 * 5) U64MAX), 3) :=
  C5_regen_saturating_formula.1 { alpha := 10, beta := 2 } 0 5 0 3 (by decide) (by decide)

/-- C10: `SlashOffline` is exactly `SlashDoubleSign` on the same arguments;
the two misbehaviour kinds differ only in the caller-chosen parameters. -/
theorem C10_slash_offline_is_slash_double_sign :
    ∀ (d : consensus.DposState) (v : Addr) (slashBps jailEpochs currentEpoch : Nat),
      consensus.SlashOffline d v slashBps jailEpochs currentEpoch =
        consensus.SlashDoubleSign d v slashBps jailEpochs currentEpoch :=
  fun _ _ _ _ _ => rfl

set_option maxRecDepth 100000 in
/-- C6: the claim `rc ≤ rc_max` after every successfully applied
transaction fails on `StakeUndelegate`: the code refreshes `rc_max` from
the reduced stake but never re-clamps `rc`.  Concretely (params
`alpha = beta = c_* = 1`, external crypto instantiated with an accepting
verifier and the identity address derivation): a sender with
`stake = 1000`, `rc = rc_max = 1000` undelegates 999; the transaction
applies successfully and leaves `rc = 822 > rc_max = 1`. -/
theorem C6_rc_exceeds_rcmax_after_undelegate :
    (state.applyTransactionWithKV (fun pk => some pk) (fun _ _ _ => true)
        { alpha := 1, beta := 1, cSize := 1, cCompute := 1, cStorage := 1 } 0 false
        [(List.replicate 32 3,
          { address := List.replicate 32 3, balance := 0, stake := 1000, rc := 1000,
            rcMax := 1000, pubkey := List.replicate 32 3 })]
        { fromAddr := List.replicate 32 3, toAddr := List.replicate 32 3, nonce := 0,
          payload := tx.encodePayload (.stakeUndelegate (List.replicate 32 3) 999) [],
          signature := List.replicate 64 4 }).map
      (fun st => state.rcWithinMax st (List.replicate 32 3)) = some false := by decide

set_option maxRecDepth 100000 in
/-- C7: conservation of `balance + stake` fails on a self-transfer: the
receiver row written inside the Transfer arm is overwritten by the final
sender write-back, destroying the transferred amount.  Concretely a sender
with `balance = 100, stake = 100` transfers 50 to itself; the transaction
applies successfully and the total drops from 200 to 150. -/
theorem C7_self_transfer_destroys_funds :
    state.sumBalanceStake
        [(List.replicate 32 3,
          { address := List.replicate 32 3, balance := 100, stake := 100, rc := 1000,
            rcMax := 1000, pubkey := List.replicate 32 3 })] = 200
    ∧ (state.applyTransactionWithKV (fun pk => some pk) (fun _ _ _ => true)
        { alpha := 10, beta := 1, cSize := 1, cCompute := 1, cStorage := 1 } 0 false
        [(List.replicate 32 3,
          { address := List.replicate 32 3, balance := 100, stake := 100, rc := 1000,
            rcMax := 1000, pubkey := List.replicate 32 3 })]
        { fromAddr := List.replicate 32 3, toAddr := List.replicate 32 3, nonce := 0,
          payload := tx.encodePayload (.transfer (List.replicate 32 3) 50) [],
          signature := List.replicate 64 4 }).map state.sumBalanceStake = some 150 := by
  exact ⟨by decide, by decide⟩

set_option maxRecDepth 100000 in
/-- C3: `ProposeBlock` builds the block at `height+1` with
`prev_hash = last_finalized_hash` and the wall-clock timestamp, but it
does **not** set `state_root` by Preview: it writes the block's own hash
(`HashBlock` of the block with the zero root) as a placeholder.  With an
injective stand-in for SHA-256 (`id`), a single-validator set where the
node is the leader and an empty mempool and store, the proposal's
`state_root` equals the block-hash placeholder while `PreviewBlock`
returns the empty-state root (32 zero bytes), so the two differ and
`ApplyBlock`'s `state root mismatch` check rejects every self-proposed
block. -/
theorem C3_propose_block_placeholder_state_root :
    (OpenCoin.consensus.ProposeBlock id (fun _ => [7]) (fun _ => some 0) (fun _ => [])
        (fun _ => none) [] 10
        { validatorSet := { validators := [{ address := [1], publicKey := [2], power := 1 }],
                            totalPower := 1, indexByAddr := [([1], 0)] },
          height := 0, round := 0, lastFinalized := List.replicate 32 0,
          validatorAddr := [1] } 42).map
      (fun prop =>
        (prop.block.height, prop.block.prevHash, prop.block.timestamp,
         decide (prop.block.stateRoot =
           marshalBlock { prop.block with stateRoot := List.replicate 32 0 }))) =
      some (1, List.replicate 32 0, 42, true)
    ∧ (OpenCoin.consensus.ProposeBlock id (fun _ => [7]) (fun _ => some 0) (fun _ => [])
        (fun _ => none) [] 10
        { validatorSet := { validators := [{ address := [1], publicKey := [2], power := 1 }],
                            totalPower := 1, indexByAddr := [([1], 0)] },
          height := 0, round := 0, lastFinalized := List.replicate 32 0,
          validatorAddr := [1] } 42).map
      (fun prop =>
        (state.PreviewBlock id (fun pk => some pk) (fun _ _ _ => true)
           { alpha := 1, beta := 1, cSize := 1, cCompute := 1, cStorage := 1,
             maxSkewSec := 0, windowN := 1 } [] [] prop.block,
         decide (state.PreviewBlock id (fun pk => some pk) (fun _ _ _ => true)
           { alpha := 1, beta := 1, cSize := 1, cCompute := 1, cStorage := 1,
             maxSkewSec := 0, windowN := 1 } [] [] prop.block =
             some prop.block.stateRoot))) =
      some (some (List.replicate 32 0), false) := by
  exact ⟨by decide, by decide⟩

/-- C1 counterexample: `VerifyQC` accepts a QC whose bitmap carries no
power at all (all bits clear, an always-false verifier), so a QC accepted
by QC verification need not exceed two thirds of the total power — the
claim's "every QC accepted by QC verification satisfies both conditions"
is false. -/
theorem C1_counterexample_verifyqc_ignores_power :
    consensus.VerifyQC (fun _ _ _ => false)
        { blockHash := List.replicate 32 0, height := 1, round := 0,
          sigBitmap := [0], signatures := [] }
        { validators := [{ address := [1], publicKey := [2], power := 1 }],
          totalPower := 1, indexByAddr := [([1], 0)] } = true
    ∧ ¬ ((2 : Nat) * 1 < 3 * consensus.bitmapSignedPower
          { validators := [{ address := [1], publicKey := [2], power := 1 }],
            totalPower := 1, indexByAddr := [([1], 0)] } [0]) := by decide

/-- Per-validator check of `VerifyQC`, characterised: a clear bit is
skipped; a set bit needs a present, non-empty, verifying signature. -/
theorem verifyQCElem_iff (verify : Bytes → Bytes → Bytes → Bool)
    (qc : QuorumCertificate) (i : Nat) (v : Validator) :
    ((if ¬ consensus.bitSet qc.sigBitmap i then true
      else if qc.signatures.length ≤ i ∨ (qc.signatures.getD i []).length = 0 then false
      else verify (precommitSignBytes
          { blockHash := qc.blockHash, height := qc.height, round := qc.round,
            validator := v.address, signature := [] })
        (qc.signatures.getD i []) v.publicKey) = true) ↔
      (consensus.bitSet qc.sigBitmap i = true →
        (i < qc.signatures.length ∧ qc.signatures.getD i [] ≠ [] ∧
         verify (precommitSignBytes
             { blockHash := qc.blockHash, height := qc.height, round := qc.round,
               validator := v.address, signature := [] })
           (qc.signatures.getD i []) v.publicKey = true)) := by
  by_cases hbit : consensus.bitSet qc.sigBitmap i = true
  · rw [if_neg (not_not_intro hbit)]
    by_cases hmiss : qc.signatures.length ≤ i ∨ (qc.signatures.getD i []).length = 0
    · rw [if_pos hmiss]
      constructor
      · intro hc
        exact (Bool.false_ne_true hc).elim
      · intro hc
        rcases hc hbit with ⟨hlt, hne, _⟩
        rcases hmiss with h | h
        · omega
        · exact (hne (List.length_eq_zero.1 h)).elim
    · rw [if_neg hmiss]
      push_neg at hmiss
      constructor
      · intro hv _
        exact ⟨by omega, fun he => hmiss.2 (by rw [he]; rfl), hv⟩
      · intro hv
        exact (hv hbit).2.2
  · rw [if_pos (by simp [hbit])]
    simp [hbit]

/-- C1 (amended): `VerifyQC` accepts exactly when the validator set is
non-empty, the bitmap length is `⌈|V|/8⌉` and every set bit carries a
present signature that verifies the synthetic
`PrecommitVote{block_hash, height, round, validator}` signing bytes under
that validator's registered pubkey — `VerifyQC` itself enforces no power
threshold; and the aggregator `tryBuildQC` returns a QC only when
`signed_power · 3 > total_power · 2` (uint64 arithmetic) over a non-zero
total power. -/
theorem C1_qc_check_and_threshold :
    (∀ (verify : Bytes → Bytes → Bytes → Bool) (qc : QuorumCertificate)
        (set : ValidatorSet),
      consensus.VerifyQC verify qc set = true ↔
        (set.validators ≠ [] ∧
         qc.sigBitmap.length = (set.validators.length + 7) / 8 ∧
         ∀ (i : Nat) (v : Validator), set.validators[i]? = some v →
           consensus.bitSet qc.sigBitmap i = true →
             (i < qc.signatures.length ∧ qc.signatures.getD i [] ≠ [] ∧
              verify (precommitSignBytes
                  { blockHash := qc.blockHash, height := qc.height, round := qc.round,
                    validator := v.address, signature := [] })
                (qc.signatures.getD i []) v.publicKey = true)))
    ∧ (∀ (e : consensus.EngineView) (blockHash : Bytes)
          (votes : List (Addr × PrecommitVote)) (qc : QuorumCertificate),
        consensus.tryBuildQC e blockHash votes = some qc →
          e.validatorSet.totalPower ≠ 0 ∧
          (e.validatorSet.totalPower * 2) % U64MOD <
            ((consensus.votesFold e.validatorSet votes).1 * 3) % U64MOD) := by
  constructor
  · intro verify qc set
    unfold consensus.VerifyQC
    by_cases h0 : set.validators.length = 0
    · rw [if_pos h0]
      simp [List.length_eq_zero.1 h0]
    · rw [if_neg h0]
      by_cases h1 : qc.sigBitmap.length ≠ (set.validators.length + 7) / 8
      · rw [if_pos h1]
        simp [h1]
      · rw [if_neg h1]
        push_neg at h1
        rw [List.all_eq_true]
        have hne : set.validators ≠ [] := by
          intro hc
          exact h0 (by rw [hc]; rfl)
        constructor
        · intro hall
          refine ⟨hne, h1, ?_⟩
          intro i v hv hbit
          have hmem : (i, v) ∈ set.validators.enum :=
            List.mk_mem_enum_iff_getElem?.2 hv
          have := hall _ hmem
          exact (verifyQCElem_iff verify qc i v).1 this hbit
        · rintro ⟨_, _, hall⟩ iv hmem
          obtain ⟨i, v⟩ := iv
          have hv : set.validators[i]? = some v :=
            List.mk_mem_enum_iff_getElem?.1 hmem
          exact (verifyQCElem_iff verify qc i v).2 (hall i v hv)
  · intro e blockHash votes qc h
    unfold consensus.tryBuildQC at h
    by_cases h0 : e.validatorSet.totalPower = 0
    · rw [if_pos h0] at h
      cases h
    · rw [if_neg h0] at h
      refine ⟨h0, ?_⟩
      by_cases h1 : ((consensus.votesFold e.validatorSet votes).1 * 3) % U64MOD ≤
          (e.validatorSet.totalPower * 2) % U64MOD
      · rw [if_pos h1] at h
        cases h
      · rw [if_neg h1] at h
        omega

/-- Witness for C1: a single-validator set (power 1), one valid vote;
`tryBuildQC` builds the QC and the theorem yields the strict threshold. -/
theorem C1_witness :
    ({ validators := [{ address := [1], publicKey := [2], power := 1 }],
       totalPower := 1, indexByAddr := [([1], 0)] } : ValidatorSet).totalPower ≠ 0 ∧
    (({ validators := [{ address := [1], publicKey := [2], power := 1 }],
        totalPower := 1, indexByAddr := [([1], 0)] } : ValidatorSet).totalPower * 2) % U64MOD <
      ((consensus.votesFold
          { validators := [{ address := [1], publicKey := [2], power := 1 }],
            totalPower := 1, indexByAddr := [([1], 0)] }
          [([1], { blockHash := List.replicate 32 9, height := 1, round := 0,
                   validator := [1], signature := [5] })]).1 * 3) % U64MOD :=
  C1_qc_check_and_threshold.2
    { validatorSet := { validators := [{ address := [1], publicKey := [2], power := 1 }],
                        totalPower := 1, indexByAddr := [([1], 0)] },
      height := 0, round := 0, lastFinalized := List.replicate 32 0, validatorAddr := [1] }
    (List.replicate 32 9)
    [([1], { blockHash := List.replicate 32 9, height := 1, round := 0,
             validator := [1], signature := [5] })]
    { blockHash := List.replicate 32 9, height := 1, round := 0,
      sigBitmap := [1], signatures := [[5]] }
    (by decide)

/-- C8: sender pubkey resolution, for an account whose stored pubkey is
either absent or was registered by this very function (32 bytes deriving
the sender address): it fails exactly when the envelope omits the pubkey
on first spend, when a supplied pubkey has length ≠ 32 or derives a
different address, or when a supplied pubkey differs from the registered
one; otherwise it succeeds, registering the supplied pubkey on first
spend (`register = true`) and verifying against the stored key afterwards.
`crypto.AddressFromPubKey` is the parameter `deriveAddr`. -/
theorem C8_resolve_sender_pubkey :
    ∀ (deriveAddr : Bytes → Option Addr) (fromA : Addr) (stored payloadPk : Bytes),
      (stored = [] ∨ (stored.length = 32 ∧ deriveAddr stored = some fromA)) →
      ((tx.ResolveSenderPubKey deriveAddr fromA stored payloadPk).isSome = true ↔
        ((stored = [] ∧ payloadPk.length = 32 ∧ deriveAddr payloadPk = some fromA) ∨
         (stored ≠ [] ∧ (payloadPk = [] ∨ payloadPk = stored))))
      ∧ (∀ pk reg,
          tx.ResolveSenderPubKey deriveAddr fromA stored payloadPk = some (pk, reg) →
            ((reg = true ↔ stored = []) ∧ (reg = true → pk = payloadPk) ∧
             (reg = false → pk = stored))) := by
  intro deriveAddr fromA stored payloadPk hwf
  rcases hwf with hst | ⟨hlen32, hder⟩
  · subst hst
    by_cases hp0 : payloadPk = []
    · subst hp0
      simp [tx.ResolveSenderPubKey]
    · have hpos : payloadPk.length > 0 := List.length_pos.2 hp0
      by_cases hl : payloadPk.length = 32
      · rcases hD : deriveAddr payloadPk with _ | d
        · simp [tx.ResolveSenderPubKey, hl, hD, hp0]
        · by_cases hda : d = fromA
          · subst hda
            simp [tx.ResolveSenderPubKey, hl, hD, hp0, hpos]
          · simp [tx.ResolveSenderPubKey, hl, hD, hp0, hpos, hda]
      · simp [tx.ResolveSenderPubKey, hpos, hl, hp0]
  · have hst : stored ≠ [] := by
      intro hc
      rw [hc] at hlen32
      cases hlen32
    have hspos : stored.length > 0 := List.length_pos.2 hst
    by_cases hp0 : payloadPk = []
    · subst hp0
      simp [tx.ResolveSenderPubKey, hlen32, hder, hst, hspos]
    · have hpos : payloadPk.length > 0 := List.length_pos.2 hp0
      by_cases hl : payloadPk.length = 32
      · by_cases heq : payloadPk = stored
        · subst heq
          simp [tx.ResolveSenderPubKey, hlen32, hder, hst, hpos, hl]
        · simp [tx.ResolveSenderPubKey, hlen32, hder, hst, hpos, hl, heq, hp0]
      · have hne : payloadPk ≠ stored := by
          intro hc
          rw [hc] at hl
          exact hl hlen32
        simp [tx.ResolveSenderPubKey, hlen32, hpos, hl, hp0, hne, hst]

/-- Witness for C8: identity address derivation, empty stored key, a
32-byte supplied pubkey equal to the sender address: resolution succeeds
and registers. -/
theorem C8_witness :
    (tx.ResolveSenderPubKey (fun pk => some pk) (List.replicate 32 7) []
        (List.replicate 32 7)).isSome = true :=
  ((C8_resolve_sender_pubkey (fun pk => some pk) (List.replicate 32 7) []
      (List.replicate 32 7) (Or.inl rfl)).1).mpr
    (Or.inl ⟨rfl, by decide, rfl⟩)

/-! Order lemmas for the mempool's `Less` (C2). -/

theorem bytesLt_irrefl : ∀ a : Bytes, bytesLt a a = false
  | [] => rfl
  | _ :: xs => by simp [bytesLt, bytesLt_irrefl xs]

theorem bytesLt_trans : ∀ a b c : Bytes,
    bytesLt a b = true → bytesLt b c = true → bytesLt a c = true
  | [], [], _ => by intro h _; exact absurd h (by simp [bytesLt])
  | [], _ :: _, [] => by intro _ h; exact absurd h (by simp [bytesLt])
  | [], _ :: _, _ :: _ => by intro _ _; rfl
  | _ :: _, [], _ => by intro h _; exact absurd h (by simp [bytesLt])
  | _ :: _, _ :: _, [] => by intro _ h; exact absurd h (by simp [bytesLt])
  | x :: xs, y :: ys, z :: zs => by
    intro h1 h2
    simp only [bytesLt] at h1 h2 ⊢
    split_ifs at h1 h2 ⊢ <;>
      first
        | rfl
        | omega
        | exact bytesLt_trans xs ys zs h1 h2

theorem bytesLt_connex : ∀ a b : Bytes,
    a ≠ b → bytesLt a b = true ∨ bytesLt b a = true
  | [], [] => fun h => absurd rfl h
  | [], _ :: _ => fun _ => Or.inl rfl
  | _ :: _, [] => fun _ => Or.inr rfl
  | x :: xs, y :: ys => by
    intro h
    by_cases hxy : x = y
    · subst hxy
      have hne : xs ≠ ys := fun hc => h (by rw [hc])
      have := bytesLt_connex xs ys hne
      simpa [bytesLt] using this
    · rcases Nat.lt_or_ge x y with hlt | hge
      · left
        simp [bytesLt, hlt]
      · have hlt : y < x := by omega
        right
        simp [bytesLt, hlt]

theorem bytesLt_neg_trans {a b c : Bytes}
    (h1 : bytesLt a b = false) (h2 : bytesLt b c = false) : bytesLt a c = false := by
  by_contra hcon
  rw [Bool.not_eq_false] at hcon
  by_cases hbc : b = c
  · subst hbc
    rw [hcon] at h1
    cases h1
  · rcases bytesLt_connex b c hbc with h | h
    · rw [h] at h2
      cases h2
    · have := bytesLt_trans a c b hcon h
      rw [this] at h1
      cases h1

theorem lessItem_irrefl (x : mempool.TxItem) : mempool.lessItem x x = false := by
  simp [mempool.lessItem, bytesLt_irrefl]

theorem lessItem_trans {x y z : mempool.TxItem}
    (h1 : mempool.lessItem x y = true) (h2 : mempool.lessItem y z = true) :
    mempool.lessItem x z = true := by
  unfold mempool.lessItem at h1 h2 ⊢
  by_cases e1 : x.cost = y.cost <;> by_cases e2 : y.cost = z.cost
  · rw [if_neg (not_not_intro e1)] at h1
    rw [if_neg (not_not_intro e2)] at h2
    rw [if_neg (not_not_intro (e1.trans e2))]
    exact bytesLt_trans _ _ _ h1 h2
  · rw [if_pos e2] at h2
    have hzy : z.cost < y.cost := of_decide_eq_true h2
    rw [if_pos (by omega : x.cost ≠ z.cost)]
    exact decide_eq_true (by omega)
  · rw [if_pos e1] at h1
    have hyx : y.cost < x.cost := of_decide_eq_true h1
    rw [if_pos (by omega : x.cost ≠ z.cost)]
    exact decide_eq_true (by omega)
  · rw [if_pos e1] at h1
    rw [if_pos e2] at h2
    have hyx : y.cost < x.cost := of_decide_eq_true h1
    have hzy : z.cost < y.cost := of_decide_eq_true h2
    rw [if_pos (by omega : x.cost ≠ z.cost)]
    exact decide_eq_true (by omega)

theorem lessItem_neg_trans {x y z : mempool.TxItem}
    (h1 : mempool.lessItem x y = false) (h2 : mempool.lessItem y z = false) :
    mempool.lessItem x z = false := by
  unfold mempool.lessItem at h1 h2 ⊢
  by_cases e1 : x.cost = y.cost <;> by_cases e2 : y.cost = z.cost
  · rw [if_neg (not_not_intro e1)] at h1
    rw [if_neg (not_not_intro e2)] at h2
    rw [if_neg (not_not_intro (e1.trans e2))]
    exact bytesLt_neg_trans h1 h2
  · rw [if_pos e2] at h2
    have hzy : ¬ z.cost < y.cost := of_decide_eq_false h2
    rw [if_pos (by omega : x.cost ≠ z.cost)]
    exact decide_eq_false (by omega)
  · rw [if_pos e1] at h1
    have hyx : ¬ y.cost < x.cost := of_decide_eq_false h1
    rw [if_pos (by omega : x.cost ≠ z.cost)]
    exact decide_eq_false (by omega)
  · rw [if_pos e1] at h1
    rw [if_pos e2] at h2
    have hyx : ¬ y.cost < x.cost := of_decide_eq_false h1
    have hzy : ¬ z.cost < y.cost := of_decide_eq_false h2
    rw [if_pos (by omega : x.cost ≠ z.cost)]
    exact decide_eq_false (by omega)

theorem lessItem_connex {x y : mempool.TxItem} (h : x.hash ≠ y.hash) :
    mempool.lessItem x y = true ∨ mempool.lessItem y x = true := by
  unfold mempool.lessItem
  by_cases e : x.cost = y.cost
  · rcases bytesLt_connex _ _ h with hb | hb
    · left
      simp [e, hb]
    · right
      simp [e, hb]
  · have e2 : y.cost ≠ x.cost := fun hc => e hc.symm
    rcases Nat.lt_or_ge x.cost y.cost with hlt | hge
    · right
      simp [e2, hlt]
    · have hlt : y.cost < x.cost := by omega
      left
      simp [e, hlt]

theorem minItem_mem : ∀ (l : List mempool.TxItem) (x : mempool.TxItem),
    mempool.minItem x l ∈ x :: l
  | [], x => List.mem_singleton.2 rfl
  | y :: l2, x => by
    have hred : mempool.minItem x (y :: l2) =
        mempool.minItem (if mempool.lessItem y x then y else x) l2 := rfl
    rw [hred]
    rcases List.mem_cons.1 (minItem_mem l2 (if mempool.lessItem y x then y else x)) with
      he | hm
    · rw [he]
      split_ifs
      · exact List.mem_cons_of_mem _ (List.mem_cons_self _ _)
      · exact List.mem_cons_self _ _
    · exact List.mem_cons_of_mem _ (List.mem_cons_of_mem _ hm)

theorem minItem_not_lt : ∀ (l : List mempool.TxItem) (x z : mempool.TxItem),
    z ∈ x :: l → mempool.lessItem z (mempool.minItem x l) = false
  | [], x, z => by
    intro hz
    have hzx : z = x := by simpa using hz
    subst hzx
    exact lessItem_irrefl z
  | y :: l2, x, z => by
    intro hz
    have hred : mempool.minItem x (y :: l2) =
        mempool.minItem (if mempool.lessItem y x then y else x) l2 := rfl
    rw [hred]
    by_cases hyx : mempool.lessItem y x = true
    · rw [if_pos hyx]
      rcases List.mem_cons.1 hz with hzx | hz2
      · subst hzx
        by_contra hcon
        rw [Bool.not_eq_false] at hcon
        have hy := minItem_not_lt l2 y y (List.mem_cons_self _ _)
        rw [lessItem_trans hyx hcon] at hy
        cases hy
      · exact minItem_not_lt l2 y z hz2
    · rw [if_neg hyx]
      have hyx2 : mempool.lessItem y x = false := by
        rcases Bool.eq_false_or_eq_true (mempool.lessItem y x) with h | h
        · exact absurd h hyx
        · exact h
      rcases List.mem_cons.1 hz with hzx | hz2
      · subst hzx
        exact minItem_not_lt l2 z z (List.mem_cons_self _ _)
      · rcases List.mem_cons.1 hz2 with hzy | hz3
        · subst hzy
          have hx := minItem_not_lt l2 x x (List.mem_cons_self _ _)
          exact lessItem_neg_trans hyx2 hx
        · exact minItem_not_lt l2 x z (List.mem_cons_of_mem _ hz3)

theorem minHashItem_mem : ∀ (l : List mempool.TxItem) (x : mempool.TxItem),
    mempool.minHashItem x l ∈ x :: l
  | [], x => List.mem_singleton.2 rfl
  | y :: l2, x => by
    have hred : mempool.minHashItem x (y :: l2) =
        mempool.minHashItem (if bytesLt y.hash x.hash then y else x) l2 := rfl
    rw [hred]
    rcases List.mem_cons.1 (minHashItem_mem l2 (if bytesLt y.hash x.hash then y else x)) with
      he | hm
    · rw [he]
      split_ifs
      · exact List.mem_cons_of_mem _ (List.mem_cons_self _ _)
      · exact List.mem_cons_self _ _
    · exact List.mem_cons_of_mem _ (List.mem_cons_of_mem _ hm)

theorem minHashItem_not_lt : ∀ (l : List mempool.TxItem) (x z : mempool.TxItem),
    z ∈ x :: l → bytesLt z.hash (mempool.minHashItem x l).hash = false
  | [], x, z => by
    intro hz
    have hzx : z = x := by simpa using hz
    subst hzx
    exact bytesLt_irrefl _
  | y :: l2, x, z => by
    intro hz
    have hred : mempool.minHashItem x (y :: l2) =
        mempool.minHashItem (if bytesLt y.hash x.hash then y else x) l2 := rfl
    rw [hred]
    by_cases hyx : bytesLt y.hash x.hash = true
    · rw [if_pos hyx]
      rcases List.mem_cons.1 hz with hzx | hz2
      · subst hzx
        by_contra hcon
        rw [Bool.not_eq_false] at hcon
        have hy := minHashItem_not_lt l2 y y (List.mem_cons_self _ _)
        rw [bytesLt_trans _ _ _ hyx hcon] at hy
        cases hy
      · exact minHashItem_not_lt l2 y z hz2
    · rw [if_neg hyx]
      have hyx2 : bytesLt y.hash x.hash = false := by
        rcases Bool.eq_false_or_eq_true (bytesLt y.hash x.hash) with h | h
        · exact absurd h hyx
        · exact h
      rcases List.mem_cons.1 hz with hzx | hz2
      · subst hzx
        exact minHashItem_not_lt l2 z z (List.mem_cons_self _ _)
      · rcases List.mem_cons.1 hz2 with hzy | hz3
        · subst hzy
          have hx := minHashItem_not_lt l2 x x (List.mem_cons_self _ _)
          exact bytesLt_neg_trans hyx2 hx
        · exact minHashItem_not_lt l2 x z (List.mem_cons_of_mem _ hz3)

/-- A `Less`-minimal element has maximal RC cost. -/
theorem cost_le_of_not_lt {z m : mempool.TxItem}
    (h : mempool.lessItem z m = false) : z.cost ≤ m.cost := by
  unfold mempool.lessItem at h
  by_cases e : z.cost = m.cost
  · omega
  · rw [if_pos e] at h
    have := of_decide_eq_false h
    omega

/-- Among items with pairwise-distinct hashes the `Less`-minimal element of
a list is unique, so two permuted lists pop the same element. -/
theorem min_eq_of_perm {l₁ l₂ : List mempool.TxItem} (hperm : l₁.Perm l₂)
    (hp : l₁.Pairwise (fun a b => a.hash ≠ b.hash))
    {m₁ m₂ : mempool.TxItem} (h1 : m₁ ∈ l₁) (h2 : m₂ ∈ l₂)
    (hmin1 : ∀ z ∈ l₁, mempool.lessItem z m₁ = false)
    (hmin2 : ∀ z ∈ l₂, mempool.lessItem z m₂ = false) :
    m₁ = m₂ := by
  by_contra hne
  have hm2 : m₂ ∈ l₁ := hperm.symm.subset h2
  have hhash : m₁.hash ≠ m₂.hash :=
    hp.forall (fun {a b} h => h.symm) h1 hm2 hne
  rcases lessItem_connex hhash with h | h
  · rw [hmin2 m₁ (hperm.subset h1)] at h
    cases h
  · rw [hmin1 m₂ hm2] at h
    cases h

/-- The spec-worded chooser coincides with the heap pop when all live
hashes are distinct. -/
theorem specPop_eq_popMin (items : List mempool.TxItem)
    (hp : items.Pairwise (fun a b => a.hash ≠ b.hash)) :
    mempool.specPop items = mempool.popMin items := by
  cases items with
  | nil => rfl
  | cons x xs =>
    have hm : mempool.minItem x xs ∈ x :: xs := minItem_mem xs x
    have hmin : ∀ z ∈ x :: xs, mempool.lessItem z (mempool.minItem x xs) = false :=
      fun z hz => minItem_not_lt xs x z hz
    have hmax : ∀ z ∈ x :: xs, z.cost ≤ (mempool.minItem x xs).cost :=
      fun z hz => cost_le_of_not_lt (hmin z hz)
    have hmemCand : mempool.minItem x xs ∈ mempool.maxCostCandidates (x :: xs) := by
      refine List.mem_filter.2 ⟨hm, ?_⟩
      exact List.all_eq_true.2 (fun y hy => decide_eq_true (hmax y hy))
    rcases hC : mempool.maxCostCandidates (x :: xs) with _ | ⟨c, cs⟩
    · rw [hC] at hmemCand
      cases hmemCand
    · have hsub : (mempool.maxCostCandidates (x :: xs)).Sublist (x :: xs) :=
        List.filter_sublist _
      have hmh : mempool.minHashItem c cs ∈ mempool.maxCostCandidates (x :: xs) := by
        rw [hC]
        exact minHashItem_mem cs c
      have hmhItems : mempool.minHashItem c cs ∈ x :: xs := hsub.subset hmh
      have hmhMax : ∀ z ∈ x :: xs, z.cost ≤ (mempool.minHashItem c cs).cost := by
        have := List.mem_filter.1 hmh
        intro z hz
        exact of_decide_eq_true (List.all_eq_true.1 this.2 z hz)
      have heq : mempool.minHashItem c cs = mempool.minItem x xs := by
        by_contra hne
        have hhash : (mempool.minHashItem c cs).hash ≠ (mempool.minItem x xs).hash :=
          hp.forall (fun {a b} h => h.symm) hmhItems hm hne
        have hcost : (mempool.minHashItem c cs).cost = (mempool.minItem x xs).cost :=
          le_antisymm (hmax _ hmhItems) (hmhMax _ hm)
        have hLt : mempool.lessItem (mempool.minHashItem c cs) (mempool.minItem x xs) = false :=
          hmin _ hmhItems
        have hb1 : bytesLt (mempool.minHashItem c cs).hash (mempool.minItem x xs).hash = false := by
          unfold mempool.lessItem at hLt
          rw [if_neg (not_not_intro hcost)] at hLt
          exact hLt
        have hb2 : bytesLt (mempool.minItem x xs).hash (mempool.minHashItem c cs).hash = false := by
          have := minHashItem_not_lt cs c (mempool.minItem x xs) (by rw [← hC]; exact hmemCand)
          exact this
        rcases bytesLt_connex _ _ hhash with h | h
        · rw [h] at hb1
          cases hb1
        · rw [h] at hb2
          cases hb2
      show (match mempool.maxCostCandidates (x :: xs) with
        | [] => none
        | c :: cs => some (mempool.minHashItem c cs, (x :: xs).erase (mempool.minHashItem c cs))) = _
      rw [hC]
      simp only [heq]
      rfl

/-- Live candidates inherit pairwise-distinct hash fields from the
pairwise-distinct hashes of the transactions they own. -/
theorem itemsPairwiseHash (hashTx : Transaction → Bytes) {items : List mempool.TxItem}
    (hsep : mempool.ItemsSep hashTx items) (hok : mempool.HashOk hashTx items) :
    items.Pairwise (fun a b => a.hash ≠ b.hash) := by
  unfold mempool.ItemsSep at hsep
  have h2 := (List.pairwise_flatten.1 hsep).2
  rw [List.pairwise_map] at h2
  refine h2.imp_of_mem ?_
  intro a b ha hb hR
  have hmem1 : a.txn ∈ mempool.ownTxs a := List.mem_cons_self _ _
  have hmem2 : b.txn ∈ mempool.ownTxs b := List.mem_cons_self _ _
  rw [hok a ha, hok b hb]
  exact hR a.txn hmem1 b.txn hmem2

/-- The candidate a pop pushes: nothing, or a single item whose cached
hash is its transaction's hash and whose owned transactions are exactly
the popped item's remaining queue. -/
theorem nextItems_cases (costFn : Transaction → Option Nat) (hashTx : Transaction → Bytes)
    (m : mempool.TxItem) (pushed : List mempool.TxItem)
    (h : mempool.nextItems costFn hashTx m = some pushed) :
    pushed = [] ∨ ∃ it, pushed = [it] ∧ it.hash = hashTx it.txn ∧
      mempool.ownTxs it = m.queueRest := by
  unfold mempool.nextItems at h
  rcases hq : m.queueRest with _ | ⟨next, qr2⟩ <;> rw [hq] at h
  · exact Or.inl (by cases h; rfl)
  · have h2 : (if next.nonce ≠ (m.acctNonce + 1) % U64MOD then some []
        else do
          let c ← costFn next
          if (if m.cost ≤ m.acctRC then m.acctRC - m.cost else 0) < c then some []
          else some [{ txn := next, cost := c, hash := hashTx next, sender := m.sender,
                       acctNonce := (m.acctNonce + 1) % U64MOD,
                       acctRC := if m.cost ≤ m.acctRC then m.acctRC - m.cost else 0,
                       queueRest := qr2 : mempool.TxItem }]) = some pushed := h
    clear h
    by_cases hn : next.nonce ≠ ((m.acctNonce + 1) % U64MOD)
    · rw [if_pos hn] at h2
      exact Or.inl (by cases h2; rfl)
    · rw [if_neg hn] at h2
      rcases hcf : costFn next with _ | c <;> rw [hcf] at h2
      · cases h2
      · simp only [Option.bind_eq_bind, Option.some_bind] at h2
        by_cases hrc : (if m.cost ≤ m.acctRC then m.acctRC - m.cost else 0) < c
        · rw [if_pos hrc] at h2
          exact Or.inl (by cases h2; rfl)
        · rw [if_neg hrc] at h2
          refine Or.inr ⟨_, by cases h2; rfl, rfl, ?_⟩
          cases h2
          simp [mempool.ownTxs]

/-- Popping a live candidate and pushing its successor preserves the
separation invariants. -/
theorem step_preserves (costFn : Transaction → Option Nat) (hashTx : Transaction → Bytes)
    {items : List mempool.TxItem} {m : mempool.TxItem} {pushed : List mempool.TxItem}
    (hsep : mempool.ItemsSep hashTx items) (hok : mempool.HashOk hashTx items)
    (hm : m ∈ items) (hnext : mempool.nextItems costFn hashTx m = some pushed) :
    mempool.ItemsSep hashTx (items.erase m ++ pushed) ∧
      mempool.HashOk hashTx (items.erase m ++ pushed) := by
  have hperm : items.Perm (m :: items.erase m) := List.perm_cons_erase hm
  have hflat : ((items.map mempool.ownTxs).flatten).Perm
      (mempool.ownTxs m ++ ((items.erase m).map mempool.ownTxs).flatten) :=
    (hperm.map mempool.ownTxs).flatten
  have hsymm : ∀ {x y : Transaction}, hashTx x ≠ hashTx y → hashTx y ≠ hashTx x :=
    fun h => h.symm
  have hsep2 : (mempool.ownTxs m ++ ((items.erase m).map mempool.ownTxs).flatten).Pairwise
      (fun t1 t2 => hashTx t1 ≠ hashTx t2) :=
    hsep.perm hflat hsymm
  have heraseOk : mempool.HashOk hashTx (items.erase m) :=
    fun it hit => hok it ((List.erase_sublist m items).subset hit)
  rcases nextItems_cases costFn hashTx m pushed hnext with hp0 | ⟨it, hp1, hhash, hown⟩
  · subst hp0
    constructor
    · unfold mempool.ItemsSep
      rw [List.append_nil]
      refine List.Pairwise.sublist ?_ hsep2
      exact List.sublist_append_right _ _
    · intro it hit
      rw [List.append_nil] at hit
      exact heraseOk it hit
  · subst hp1
    constructor
    · unfold mempool.ItemsSep
      rw [List.map_append, List.flatten_append]
      have hBA : ((((items.erase m).map mempool.ownTxs).flatten) ++
          ([it].map mempool.ownTxs).flatten).Perm
          (([it].map mempool.ownTxs).flatten ++
            (((items.erase m).map mempool.ownTxs).flatten)) :=
        List.perm_append_comm
      have hflatIt : ([it].map mempool.ownTxs).flatten = m.queueRest := by
        simp [hown]
      refine List.Pairwise.perm ?_ hBA.symm hsymm
      rw [hflatIt]
      refine List.Pairwise.sublist ?_ hsep2
      have : mempool.ownTxs m = m.txn :: m.queueRest := rfl
      rw [this]
      exact (List.sublist_cons_self m.txn m.queueRest).append_right _
    · intro x hx
      rcases List.mem_append.1 hx with h | h
      · exact heraseOk x h
      · have : x = it := by simpa using h
        subst this
        exact hhash

/-- Equation for the selection loop on a non-empty heap. -/
theorem selectLoop_cons (costFn : Transaction → Option Nat) (hashTx : Transaction → Bytes)
    (n : Nat) (x : mempool.TxItem) (xs : List mempool.TxItem) :
    mempool.selectLoop costFn hashTx (n + 1) (x :: xs) =
      (do
        let pushed ← mempool.nextItems costFn hashTx (mempool.minItem x xs)
        let tail ← mempool.selectLoop costFn hashTx n
          ((x :: xs).erase (mempool.minItem x xs) ++ pushed)
        some ((mempool.minItem x xs).txn :: tail)) := rfl

/-- The selection loop is invariant under permuting the heap contents. -/
theorem selectLoop_eq_of_perm (costFn : Transaction → Option Nat)
    (hashTx : Transaction → Bytes) :
    ∀ (n : Nat) (l₁ l₂ : List mempool.TxItem), l₁.Perm l₂ →
      mempool.ItemsSep hashTx l₁ → mempool.HashOk hashTx l₁ →
      mempool.selectLoop costFn hashTx n l₁ = mempool.selectLoop costFn hashTx n l₂ := by
  intro n
  induction n with
  | zero => intro l₁ l₂ _ _ _; rfl
  | succ n ih =>
    intro l₁ l₂ hperm hsep hok
    cases l₁ with
    | nil =>
      cases l₂ with
      | nil => rfl
      | cons y ys => exact absurd (List.nil_perm.1 hperm) (by simp)
    | cons x xs =>
      cases l₂ with
      | nil => exact absurd (List.perm_nil.1 hperm) (by simp)
      | cons y ys =>
        have hpair : (x :: xs).Pairwise (fun a b => a.hash ≠ b.hash) :=
          itemsPairwiseHash hashTx hsep hok
        have hm1 : mempool.minItem x xs ∈ x :: xs := minItem_mem xs x
        have hm2 : mempool.minItem y ys ∈ y :: ys := minItem_mem ys y
        have hmEq : mempool.minItem x xs = mempool.minItem y ys :=
          min_eq_of_perm hperm hpair hm1 hm2
            (fun z hz => minItem_not_lt xs x z hz)
            (fun z hz => minItem_not_lt ys y z hz)
        rw [selectLoop_cons, selectLoop_cons, ← hmEq]
        have hr : ((x :: xs).erase (mempool.minItem x xs)).Perm
            ((y :: ys).erase (mempool.minItem x xs)) :=
          hperm.erase _
        cases hN : mempool.nextItems costFn hashTx (mempool.minItem x xs) with
        | none => rfl
        | some pushed =>
          have hstep := step_preserves costFn hashTx hsep hok hm1 hN
          have hperm2 : ((x :: xs).erase (mempool.minItem x xs) ++ pushed).Perm
              ((y :: ys).erase (mempool.minItem x xs) ++ pushed) :=
            hr.append_right pushed
          simp only [Option.bind_eq_bind, Option.some_bind]
          rw [ih _ _ hperm2 hstep.1 hstep.2]

/-- The spec-worded loop coincides with the source's heap loop whenever
the live hashes are separated. -/
theorem specLoop_eq_selectLoop (costFn : Transaction → Option Nat)
    (hashTx : Transaction → Bytes) :
    ∀ (n : Nat) (items : List mempool.TxItem),
      mempool.ItemsSep hashTx items → mempool.HashOk hashTx items →
      mempool.specLoop costFn hashTx n items = mempool.selectLoop costFn hashTx n items := by
  intro n
  induction n with
  | zero => intro items _ _; rfl
  | succ n ih =>
    intro items hsep hok
    cases items with
    | nil => rfl
    | cons x xs =>
      have hpair := itemsPairwiseHash hashTx hsep hok
      have hPop : mempool.specPop (x :: xs) = mempool.popMin (x :: xs) :=
        specPop_eq_popMin _ hpair
      have hL : mempool.specLoop costFn hashTx (n + 1) (x :: xs) =
          (match mempool.specPop (x :: xs) with
           | none => some []
           | some (item, rest) => do
              let pushed ← mempool.nextItems costFn hashTx item
              let tail ← mempool.specLoop costFn hashTx n (rest ++ pushed)
              some (item.txn :: tail)) := rfl
      rw [hL, hPop]
      show (do
          let pushed ← mempool.nextItems costFn hashTx (mempool.minItem x xs)
          let tail ← mempool.specLoop costFn hashTx n
            ((x :: xs).erase (mempool.minItem x xs) ++ pushed)
          some ((mempool.minItem x xs).txn :: tail)) = _
      rw [selectLoop_cons]
      cases hN : mempool.nextItems costFn hashTx (mempool.minItem x xs) with
      | none => rfl
      | some pushed =>
        have hstep := step_preserves costFn hashTx hsep hok (minItem_mem xs x) hN
        simp only [Option.bind_eq_bind, Option.some_bind]
        rw [ih _ hstep.1 hstep.2]

/-- The seeding loop, one entry at a time. -/
theorem seed_cons (costFn : Transaction → Option Nat) (hashTx : Transaction → Bytes)
    (getAcct : Addr → Option Account) (e : Addr × List Transaction)
    (rest : List (Addr × List Transaction)) :
    mempool.seed costFn hashTx getAcct (e :: rest) =
      (match mempool.seedEntry costFn hashTx getAcct e with
       | none => none
       | some none => mempool.seed costFn hashTx getAcct rest
       | some (some it) =>
         (mempool.seed costFn hashTx getAcct rest).map (it :: ·)) := by
  obtain ⟨addr, queue⟩ := e
  show (match getAcct addr, queue with
    | none, _ => mempool.seed costFn hashTx getAcct rest
    | some _, [] => mempool.seed costFn hashTx getAcct rest
    | some acct, headTx :: queueRest =>
      if headTx.nonce ≠ acct.nonce then mempool.seed costFn hashTx getAcct rest
      else do
        let c ← costFn headTx
        if acct.rc < c then mempool.seed costFn hashTx getAcct rest
        else do
          let tail ← mempool.seed costFn hashTx getAcct rest
          some ({ txn := headTx, cost := c, hash := hashTx headTx, sender := addr,
                  acctNonce := acct.nonce, acctRC := acct.rc,
                  queueRest := queueRest } :: tail)) = _
  unfold mempool.seedEntry
  cases hA : getAcct addr with
  | none => rfl
  | some acct =>
    cases queue with
    | nil => rfl
    | cons headTx queueRest =>
      dsimp only
      by_cases hn : headTx.nonce ≠ acct.nonce
      · rw [if_pos hn, if_pos hn]
      · rw [if_neg hn, if_neg hn]
        cases hc : costFn headTx with
        | none => rfl
        | some c =>
          simp only [Option.bind_eq_bind, Option.some_bind]
          by_cases hrc : acct.rc < c
          · rw [if_pos hrc, if_pos hrc]
          · rw [if_neg hrc, if_neg hrc]
            cases mempool.seed costFn hashTx getAcct rest <;> rfl

/-- Seeding a permuted pool yields a permuted candidate list (and errors
exactly together): Go map iteration order does not influence the set of
seeded candidates. -/
theorem seed_perm (costFn : Transaction → Option Nat) (hashTx : Transaction → Bytes)
    (getAcct : Addr → Option Account) :
    ∀ {p₁ p₂ : List (Addr × List Transaction)}, p₁.Perm p₂ →
      ∀ {l₁ : List mempool.TxItem},
        mempool.seed costFn hashTx getAcct p₁ = some l₁ →
        ∃ l₂, mempool.seed costFn hashTx getAcct p₂ = some l₂ ∧ l₁.Perm l₂ := by
  intro p₁ p₂ hperm
  induction hperm with
  | nil =>
    intro l₁ h
    exact ⟨l₁, h, List.Perm.refl _⟩
  | cons z _ ih =>
    rename_i t₁ t₂ _
    intro l₁ h1
    rw [seed_cons] at h1 ⊢
    revert h1
    rcases hE : mempool.seedEntry costFn hashTx getAcct z with _ | (_ | it) <;>
      intro h1 <;>
      (try dsimp only at h1 ⊢)
    · cases h1
    · exact ih h1
    · revert h1
      cases hS : mempool.seed costFn hashTx getAcct t₁ with
      | none =>
        intro h1
        cases h1
      | some l0 =>
        intro h1
        cases h1
        rcases ih hS with ⟨l₂, h2, hp⟩
        rw [h2]
        exact ⟨it :: l₂, rfl, hp.cons it⟩
  | swap x y t =>
    intro l₁ h1
    simp only [seed_cons] at h1 ⊢
    revert h1
    rcases hEy : mempool.seedEntry costFn hashTx getAcct y with _ | (_ | itY) <;>
      rcases hEx : mempool.seedEntry costFn hashTx getAcct x with _ | (_ | itX) <;>
      cases hS : mempool.seed costFn hashTx getAcct t <;>
      intro h1 <;>
      (try dsimp only [Option.map] at h1 ⊢) <;>
      first
        | (cases h1 <;> exact ⟨_, rfl, List.Perm.refl _⟩)
        | (cases h1 <;> exact ⟨_, rfl, List.Perm.swap itX itY _⟩)
  | trans _ _ ih1 ih2 =>
    intro l₁ hs
    rcases ih1 hs with ⟨l₂, h2, hp⟩
    rcases ih2 h2 with ⟨l₃, h3, hp2⟩
    exact ⟨l₃, h3, hp.trans hp2⟩

/-- A pushed seed candidate caches its transaction's hash and owns its
sender's whole queue. -/
theorem seedEntry_push (costFn : Transaction → Option Nat) (hashTx : Transaction → Bytes)
    (getAcct : Addr → Option Account) {e : Addr × List Transaction} {it : mempool.TxItem}
    (h : mempool.seedEntry costFn hashTx getAcct e = some (some it)) :
    it.hash = hashTx it.txn ∧ mempool.ownTxs it = e.2 := by
  obtain ⟨addr, queue⟩ := e
  unfold mempool.seedEntry at h
  cases hA : getAcct addr with
  | none =>
    rw [hA] at h
    cases h
  | some acct =>
    rw [hA] at h
    cases queue with
    | nil => cases h
    | cons headTx queueRest =>
      dsimp only at h
      by_cases hn : headTx.nonce ≠ acct.nonce
      · rw [if_pos hn] at h
        cases h
      · rw [if_neg hn] at h
        cases hc : costFn headTx with
        | none =>
          rw [hc] at h
          cases h
        | some c =>
          rw [hc] at h
          dsimp only at h
          by_cases hrc : acct.rc < c
          · rw [if_pos hrc] at h
            cases h
          · rw [if_neg hrc] at h
            cases h
            exact ⟨rfl, rfl⟩

theorem seed_hashOk (costFn : Transaction → Option Nat) (hashTx : Transaction → Bytes)
    (getAcct : Addr → Option Account) :
    ∀ (pool : List (Addr × List Transaction)) {l : List mempool.TxItem},
      mempool.seed costFn hashTx getAcct pool = some l → mempool.HashOk hashTx l
  | [], l => by
    intro h it hit
    cases h
    cases hit
  | e :: rest, l => by
    intro h
    rw [seed_cons] at h
    revert h
    rcases hE : mempool.seedEntry costFn hashTx getAcct e with _ | (_ | it0) <;>
      intro h <;> (try dsimp only at h)
    · cases h
    · exact seed_hashOk costFn hashTx getAcct rest h
    · revert h
      cases hS : mempool.seed costFn hashTx getAcct rest with
      | none =>
        intro h
        cases h
      | some l0 =>
        intro h
        dsimp only [Option.map] at h
        cases h
        intro it hit
        rcases List.mem_cons.1 hit with he | hm
        · subst he
          exact (seedEntry_push costFn hashTx getAcct hE).1
        · exact seed_hashOk costFn hashTx getAcct rest hS it hm

theorem seed_own_sublist (costFn : Transaction → Option Nat) (hashTx : Transaction → Bytes)
    (getAcct : Addr → Option Account) :
    ∀ (pool : List (Addr × List Transaction)) {l : List mempool.TxItem},
      mempool.seed costFn hashTx getAcct pool = some l →
      ((l.map mempool.ownTxs).flatten).Sublist ((pool.map Prod.snd).flatten)
  | [], l => by
    intro h
    cases h
    simp
  | e :: rest, l => by
    intro h
    rw [seed_cons] at h
    revert h
    rcases hE : mempool.seedEntry costFn hashTx getAcct e with _ | (_ | it0) <;>
      intro h <;> (try dsimp only at h)
    · cases h
    · have ih := seed_own_sublist costFn hashTx getAcct rest h
      simp only [List.map_cons, List.flatten_cons]
      exact ih.trans (List.sublist_append_right _ _)
    · revert h
      cases hS : mempool.seed costFn hashTx getAcct rest with
      | none =>
        intro h
        cases h
      | some l0 =>
        intro h
        dsimp only [Option.map] at h
        cases h
        have ih := seed_own_sublist costFn hashTx getAcct rest hS
        have hown := (seedEntry_push costFn hashTx getAcct hE).2
        simp only [List.map_cons, List.flatten_cons, hown]
        exact ih.append_left e.2

theorem seed_sep (costFn : Transaction → Option Nat) (hashTx : Transaction → Bytes)
    (getAcct : Addr → Option Account) {pool : List (Addr × List Transaction)}
    {l : List mempool.TxItem} (hp : mempool.PoolSep hashTx pool)
    (h : mempool.seed costFn hashTx getAcct pool = some l) :
    mempool.ItemsSep hashTx l :=
  List.Pairwise.sublist (seed_own_sublist costFn hashTx getAcct pool h) hp

/-- C2: mempool block selection.  (i) `SelectForBlock` computes exactly the
spec-worded recursion `SelectForBlockSpec` — seed one eligible head per
sender, then repeatedly pop the highest-cost candidate (ties by ascending
hash of the canonical encoding) and push the popped sender's next head
after `nonce+1` / saturating `rc -= cost` on the local account copy —
whenever all pool transactions have distinct hashes (SHA-256 collisions
are the only exception).  (ii) Selection is invariant under permuting the
pool, i.e. two runs over Go's randomly-ordered map iteration produce
identical output on identical inputs.  (iii) The literal scenario
A(nonce 0, rc 100) with A0, A1 of cost 5 and B(nonce 0, rc 100) with B0 of
cost 10 selects exactly `[B0, A0, A1]`. -/
theorem C2_select_for_block :
    (∀ (costFn : Transaction → Option Nat) (hashTx : Transaction → Bytes)
        (getAcct : Addr → Option Account) (pool : List (Addr × List Transaction))
        (maxTxs : Int), mempool.PoolSep hashTx pool →
        mempool.SelectForBlock costFn hashTx getAcct pool maxTxs =
          mempool.SelectForBlockSpec costFn hashTx getAcct pool maxTxs)
    ∧ (∀ (costFn : Transaction → Option Nat) (hashTx : Transaction → Bytes)
        (getAcct : Addr → Option Account)
        (pool₁ pool₂ : List (Addr × List Transaction)) (maxTxs : Int),
        mempool.PoolSep hashTx pool₁ → pool₁.Perm pool₂ →
        mempool.SelectForBlock costFn hashTx getAcct pool₁ maxTxs =
          mempool.SelectForBlock costFn hashTx getAcct pool₂ maxTxs)
    ∧ mempool.SelectForBlock
        (fun t => if t.fromAddr = [98] ∧ t.nonce = 0 then some 10 else some 5)
        (fun t => [t.fromAddr.headD 0, t.nonce])
        (fun a =>
          if a = [97] then some { address := [97], nonce := 0, rc := 100 }
          else if a = [98] then some { address := [98], nonce := 0, rc := 100 }
          else none)
        [([97], [{ fromAddr := [97], toAddr := [120], nonce := 0, payload := [1], signature := [] },
                 { fromAddr := [97], toAddr := [120], nonce := 1, payload := [1], signature := [] }]),
         ([98], [{ fromAddr := [98], toAddr := [121], nonce := 0, payload := [1], signature := [] }])] 3 =
      some [{ fromAddr := [98], toAddr := [121], nonce := 0, payload := [1], signature := [] },
            { fromAddr := [97], toAddr := [120], nonce := 0, payload := [1], signature := [] },
            { fromAddr := [97], toAddr := [120], nonce := 1, payload := [1], signature := [] }] := by
  refine ⟨?_, ?_, by decide⟩
  · intro costFn hashTx getAcct pool maxTxs hp
    unfold mempool.SelectForBlock mempool.SelectForBlockSpec
    by_cases hmax : maxTxs ≤ 0
    · rw [if_pos hmax, if_pos hmax]
    · rw [if_neg hmax, if_neg hmax]
      cases hS : mempool.seed costFn hashTx getAcct pool with
      | none => rfl
      | some items =>
        simp only [Option.bind_eq_bind, Option.some_bind]
        exact (specLoop_eq_selectLoop costFn hashTx maxTxs.toNat items
          (seed_sep costFn hashTx getAcct hp hS)
          (seed_hashOk costFn hashTx getAcct pool hS)).symm
  · intro costFn hashTx getAcct pool₁ pool₂ maxTxs hp hperm
    unfold mempool.SelectForBlock
    by_cases hmax : maxTxs ≤ 0
    · rw [if_pos hmax, if_pos hmax]
    · rw [if_neg hmax, if_neg hmax]
      cases hS : mempool.seed costFn hashTx getAcct pool₁ with
      | none =>
        cases hS2 : mempool.seed costFn hashTx getAcct pool₂ with
        | none => rfl
        | some l2 =>
          rcases seed_perm costFn hashTx getAcct hperm.symm hS2 with ⟨l1, h1, _⟩
          rw [hS] at h1
          cases h1
      | some items =>
        rcases seed_perm costFn hashTx getAcct hperm hS with ⟨l2, h2, hpm⟩
        rw [h2]
        simp only [Option.bind_eq_bind, Option.some_bind]
        exact selectLoop_eq_of_perm costFn hashTx maxTxs.toNat items l2 hpm
          (seed_sep costFn hashTx getAcct hp hS)
          (seed_hashOk costFn hashTx getAcct pool₁ hS)

/-- Witness for C2 at the literal scenario pool (distinct hashes, swapped
pool order). -/
theorem C2_witness :
    mempool.SelectForBlock
        (fun t => if t.fromAddr = [98] ∧ t.nonce = 0 then some 10 else some 5)
        (fun t => [t.fromAddr.headD 0, t.nonce])
        (fun a =>
          if a = [97] then some { address := [97], nonce := 0, rc := 100 }
          else if a = [98] then some { address := [98], nonce := 0, rc := 100 }
          else none)
        [([97], [{ fromAddr := [97], toAddr := [120], nonce := 0, payload := [1], signature := [] },
                 { fromAddr := [97], toAddr := [120], nonce := 1, payload := [1], signature := [] }]),
         ([98], [{ fromAddr := [98], toAddr := [121], nonce := 0, payload := [1], signature := [] }])] 3 =
      mempool.SelectForBlock
        (fun t => if t.fromAddr = [98] ∧ t.nonce = 0 then some 10 else some 5)
        (fun t => [t.fromAddr.headD 0, t.nonce])
        (fun a =>
          if a = [97] then some { address := [97], nonce := 0, rc := 100 }
          else if a = [98] then some { address := [98], nonce := 0, rc := 100 }
          else none)
        [([98], [{ fromAddr := [98], toAddr := [121], nonce := 0, payload := [1], signature := [] }]),
         ([97], [{ fromAddr := [97], toAddr := [120], nonce := 0, payload := [1], signature := [] },
                 { fromAddr := [97], toAddr := [120], nonce := 1, payload := [1], signature := [] }])] 3 :=
  C2_select_for_block.2.1
    (fun t => if t.fromAddr = [98] ∧ t.nonce = 0 then some 10 else some 5)
    (fun t => [t.fromAddr.headD 0, t.nonce])
    (fun a =>
      if a = [97] then some { address := [97], nonce := 0, rc := 100 }
      else if a = [98] then some { address := [98], nonce := 0, rc := 100 }
      else none)
    _ _ 3 (by unfold mempool.PoolSep; decide) (List.Perm.swap _ _ _)

end Claims

end OpenCoin
